import Mathlib

/-!
Verification development for the rstar repository (an in-memory, N-dimensional
R-tree).  The repository's `src/` holds the public API layer
(`src/rstar/src/rtree.rs`) and the `LineWithData` primitive
(`src/rstar/src/primitives/line_with_data.rs`).  The algorithm modules that
`rtree.rs` delegates to (envelopes, nodes, parameters, bulk loading, R*
insertion, removal, selection traversal, nearest-neighbour search) are part of
the repository but are not present under `src/`; those parts are modelled from
the specification, as indicated by the doc comments below.

The tree model uses integer coordinates.  The specification's scalar contract
is any totally ordered numeric type; its design notes explicitly admit
substituting a type without a native infinity, representing the empty-envelope
sentinel separately, which is done here with a dedicated `AABB.empty`
constructor.  The `LineWithData` primitive, whose `project_point` divides, is
modelled over the rationals.
-/

namespace Rstar

/-! ## Points and envelopes -/
/-- A fixed-dimensional point with integer coordinates. -/
abbrev Pt (d : Nat) := Fin d → Int

/-- Modelled from the spec: the axis-aligned bounding box (`AABB` in the
repository; its module is not under `src/`).  The empty envelope is a separate
sentinel constructor (the spec's `lower = +inf, upper = -inf`). -/
inductive AABB (d : Nat) : Type where
  | empty : AABB d
  | box (lower upper : Pt d) : AABB d
deriving DecidableEq

namespace AABB

/-- Modelled from the spec: `union(a,b)` is the componentwise min of lowers and
max of uppers; unions with the empty sentinel return the other argument. -/
def merged {d : Nat} : AABB d → AABB d → AABB d
  | .empty, e => e
  | .box l u, .empty => .box l u
  | .box l1 u1, .box l2 u2 => .box (fun i => min (l1 i) (l2 i)) (fun i => max (u1 i) (u2 i))

/-- Modelled from the spec: `intersects(a,b)` iff for every axis
`a.lower[i] <= b.upper[i]` and `b.lower[i] <= a.upper[i]`.  With the infinite
sentinel this is false whenever either side is empty. -/
def intersects {d : Nat} : AABB d → AABB d → Bool
  | .empty, _ => false
  | .box _ _, .empty => false
  | .box l1 u1, .box l2 u2 => decide (∀ i, l1 i ≤ u2 i ∧ l2 i ≤ u1 i)

/-- Modelled from the spec: `contains_envelope(a,b)` iff `a.lower <= b.lower`
and `b.upper <= a.upper` componentwise.  The empty sentinel is contained in
everything and contains nothing but itself. -/
def contains_envelope {d : Nat} : AABB d → AABB d → Bool
  | _, .empty => true
  | .empty, .box _ _ => false
  | .box l1 u1, .box l2 u2 => decide (∀ i, l1 i ≤ l2 i ∧ u2 i ≤ u1 i)

/-- Modelled from the spec: membership of a point in an envelope. -/
def contains_point {d : Nat} : AABB d → Pt d → Bool
  | .empty, _ => false
  | .box l u, p => decide (∀ i, l i ≤ p i ∧ p i ≤ u i)

/-- Distance from a coordinate to an interval, zero inside. -/
def axDist (l u t : Int) : Int := max (l - t) (max (t - u) 0)

/-- Modelled from the spec: `min_distance_2(env, p)`, the squared Euclidean
distance from `p` to the nearest point of the envelope (0 if `p` is inside). -/
def min_distance_2 {d : Nat} : AABB d → Pt d → Int
  | .empty, _ => 0
  | .box l u, p => Finset.univ.sum (fun i => (axDist (l i) (u i) (p i)) ^ 2)

/-- Modelled from the spec: `area` returns the product of side lengths, 0 if
any side is non-positive. -/
def area {d : Nat} : AABB d → Int
  | .empty => 0
  | .box l u => if decide (∀ i, 0 < u i - l i) then Finset.univ.prod (fun i => u i - l i) else 0

/-- Modelled from the spec: `margin_value` is the sum of side lengths. -/
def margin_value {d : Nat} : AABB d → Int
  | .empty => 0
  | .box l u => Finset.univ.sum (fun i => u i - l i)

/-- Modelled from the spec: `intersection_area` computes componentwise overlap
widths; if any is non-positive the result is 0. -/
def intersection_area {d : Nat} : AABB d → AABB d → Int
  | .empty, _ => 0
  | .box _ _, .empty => 0
  | .box l1 u1, .box l2 u2 =>
      if decide (∀ i, 0 < min (u1 i) (u2 i) - max (l1 i) (l2 i)) then
        Finset.univ.prod (fun i => min (u1 i) (u2 i) - max (l1 i) (l2 i))
      else 0

/-- The doubled center of an envelope (`lower + upper`, componentwise).  The
spec's center is `(lower+upper)/2`; doubling every center preserves all the
comparisons the algorithms make with centers, and stays inside the integers. -/
def center2 {d : Nat} : AABB d → Pt d
  | .empty => fun _ => 0
  | .box l u => fun i => l i + u i

/-- An envelope is a valid box when its lower corner is componentwise at most
its upper corner (the spec's envelope invariant). -/
def validB {d : Nat} : AABB d → Bool
  | .empty => false
  | .box l u => decide (∀ i, l i ≤ u i)

end AABB

/-- Squared Euclidean distance between two points. -/
def dist2Pts {d : Nat} (a b : Pt d) : Int := Finset.univ.sum (fun i => (a i - b i) ^ 2)

/-- The envelope of a list of envelopes: the fold of `merged` starting from the
empty sentinel (the spec's union of children envelopes). -/
def envMergeList {d : Nat} (l : List (AABB d)) : AABB d := l.foldr AABB.merged .empty

/-! ## Objects

The spec's object contract: an externally supplied value with an `envelope()`
accessor; objects supporting point location additionally provide
`distance_2(point)` and `contains_point(point)`. -/
/-- The operations the tree consumes from stored objects (the `RTreeObject` and
`PointDistance` traits; their module is not under `src/`, so this records the
interface the spec describes). -/
structure ObjOps (α : Type) (d : Nat) where
  envelope : α → AABB d
  distance_2 : α → Pt d → Int
  contains_point : α → Pt d → Bool

/-- Well-behaved objects: every envelope is a valid box (the spec's envelope
invariant `lower[i] <= upper[i]`), and the envelope distance is a lower bound
for the object distance (the spec: "its envelope distance is a lower bound for
the true distance"). -/
def ObjOps.WF {α : Type} {d : Nat} (ops : ObjOps α d) : Prop :=
  (∀ x, (ops.envelope x).validB = true) ∧
  (∀ x q, (ops.envelope x).min_distance_2 q ≤ ops.distance_2 x q)

/-! ## Nodes and trees -/
/-- The tagged node union from the spec's data model: a `Leaf` holds a stored
object, a `Parent` holds children plus a cached envelope.  (The node module is
not under `src/`; modelled from the spec.) -/
inductive RNode (α : Type) (d : Nat) : Type where
  | leaf (obj : α)
  | parent (envelope : AABB d) (children : List (RNode α d))

/-- The envelope query shared by both node kinds: a leaf's envelope is its
object's envelope, a parent's is the cached one. -/
def RNode.envOf {α : Type} {d : Nat} (ops : ObjOps α d) : RNode α d → AABB d
  | .leaf o => ops.envelope o
  | .parent e _ => e

mutual
/-- The objects stored in a subtree, in left-to-right order. -/
def RNode.elems {α : Type} {d : Nat} : RNode α d → List α
  | .leaf o => [o]
  | .parent _ cs => elemsL cs
def elemsL {α : Type} {d : Nat} : List (RNode α d) → List α
  | [] => []
  | c :: cs => c.elems ++ elemsL cs
end

/-- The number of `Leaf` descendants of a node. -/
def RNode.leafCount {α : Type} {d : Nat} (n : RNode α d) : Nat := n.elems.length

mutual
/-- Height of a node: leaves are at height 0, a parent is one above the
highest child (an empty parent has height 1). -/
def RNode.heightB {α : Type} {d : Nat} : RNode α d → Nat
  | .leaf _ => 0
  | .parent _ cs => heightLB cs + 1
def heightLB {α : Type} {d : Nat} : List (RNode α d) → Nat
  | [] => 0
  | c :: cs => max c.heightB (heightLB cs)
end

mutual
/-- Node count of a subtree (used as a termination measure for the
best-first search). -/
def RNode.nodeCount {α : Type} {d : Nat} : RNode α d → Nat
  | .leaf _ => 1
  | .parent _ cs => nodeCountL cs + 1
def nodeCountL {α : Type} {d : Nat} : List (RNode α d) → Nat
  | [] => 0
  | c :: cs => c.nodeCount + nodeCountL cs
end

/-- The list of child envelopes. -/
def childEnvs {α : Type} {d : Nat} (ops : ObjOps α d) (cs : List (RNode α d)) : List (AABB d) :=
  cs.map (RNode.envOf ops)

/-- Recomputed parent envelope: the union of the children's envelopes. -/
def envUnion {α : Type} {d : Nat} (ops : ObjOps α d) (cs : List (RNode α d)) : AABB d :=
  envMergeList (childEnvs ops cs)

mutual
/-- The tree invariants, checked per node at a prescribed height `h`
(spec section 3): all leaves at depth 0 of their subtree, every non-root
parent has between `MIN_SIZE` and `MAX_SIZE` children, every parent's envelope
equals the union of its children's envelopes. -/
def RNode.wfAt {α : Type} {d : Nat} (ops : ObjOps α d) (minSize maxSize : Nat) :
    RNode α d → Nat → Bool
  | .leaf _, 0 => true
  | .leaf _, _ + 1 => false
  | .parent _ _, 0 => false
  | .parent e cs, h + 1 =>
      decide (e = envUnion ops cs) && decide (minSize ≤ cs.length) &&
      decide (cs.length ≤ maxSize) && wfAtL ops minSize maxSize cs h
def wfAtL {α : Type} {d : Nat} (ops : ObjOps α d) (minSize maxSize : Nat) :
    List (RNode α d) → Nat → Bool
  | [], _ => true
  | c :: cs, h => RNode.wfAt ops minSize maxSize c h && wfAtL ops minSize maxSize cs h
end

/-! ## Selection traversal

Modelled from the spec (the iterator module is not under `src/`): a selector
supplies `should_descend(envelope)` and `should_yield(object)`; the traversal
descends only into children whose envelope satisfies `should_descend` and
yields the objects of the leaves it reaches that satisfy `should_yield`.  The
source implements this with an explicit stack of frames for pause/resume; the
sequence of yielded objects is the depth-first one modelled here. -/
mutual
def selNode {α : Type} {d : Nat} (ops : ObjOps α d) (desc : AABB d → Bool)
    (yld : α → Bool) : RNode α d → List α
  | .leaf o => if yld o then [o] else []
  | .parent _ cs => selL ops desc yld cs
def selL {α : Type} {d : Nat} (ops : ObjOps α d) (desc : AABB d → Bool)
    (yld : α → Bool) : List (RNode α d) → List α
  | [] => []
  | c :: cs =>
      (if desc (c.envOf ops) then selNode ops desc yld c else []) ++ selL ops desc yld cs
end

mutual
/-- The envelope part of the tree invariants alone: every parent's cached
envelope is the union of its children's envelopes. -/
def RNode.envOk {α : Type} {d : Nat} (ops : ObjOps α d) : RNode α d → Bool
  | .leaf _ => true
  | .parent e cs => decide (e = envUnion ops cs) && envOkL ops cs
def envOkL {α : Type} {d : Nat} (ops : ObjOps α d) : List (RNode α d) → Bool
  | [] => true
  | c :: cs => c.envOk ops && envOkL ops cs
end

/-! ## Parameters

Modelled from the spec: `MIN_SIZE >= 2`, `MAX_SIZE >= 2 * MIN_SIZE`,
`REINSERTION_COUNT in [1, MAX_SIZE - MIN_SIZE + 1]`; defaults 3 / 6 / 2.
(The params module is not under `src/`.) -/
structure Params where
  MIN_SIZE : Nat
  MAX_SIZE : Nat
  REINSERTION_COUNT : Nat

def Params.valid (p : Params) : Prop :=
  2 ≤ p.MIN_SIZE ∧ 2 * p.MIN_SIZE ≤ p.MAX_SIZE ∧
  1 ≤ p.REINSERTION_COUNT ∧ p.REINSERTION_COUNT ≤ p.MAX_SIZE - p.MIN_SIZE + 1

instance : DecidablePred Params.valid := fun p => by unfold Params.valid; infer_instance

/-- The spec's default parameters. -/
def DefaultParams : Params := ⟨3, 6, 2⟩

/-! ## Generic first-minimum selection -/
/-- Strict lexicographic comparison on key triples (primary criterion, then
the first tie-breaker, then the second). -/
def lexLt (a b : Int × Int × Int) : Bool :=
  decide (a.1 < b.1 ∨ (a.1 = b.1 ∧ (a.2.1 < b.2.1 ∨ (a.2.1 = b.2.1 ∧ a.2.2 < b.2.2))))

/-- Index of the first minimising key (the running best wins ties). -/
def argminAux : List (Int × Int × Int) → Nat → (Int × Int × Int) → Nat → Nat
  | [], _, _, best => best
  | k :: ks, cur, bestKey, best =>
      if lexLt k bestKey then argminAux ks (cur + 1) k cur
      else argminAux ks (cur + 1) bestKey best

def argminIdx : List (Int × Int × Int) → Nat
  | [] => 0
  | k :: ks => argminAux ks 1 k 0

/-- First element of a list attaining the minimal key (`none` on `[]`). -/
def pickMinBy {β : Type} (key : β → Int × Int × Int) : List β → Option β
  | [] => none
  | b :: bs =>
      match pickMinBy key bs with
      | none => some b
      | some m => if lexLt (key m) (key b) then some m else some b

/-! ## R* insertion

Modelled from the spec (section 4.3; the insertion module is not under
`src/`): ChooseSubtree descends by minimum overlap enlargement at the level
whose children receive the entry as leaves (area enlargement above it, with
area enlargement then area as tie-breakers), overflow triggers forced
reinsertion the first time a level overflows during one insertion and a
margin/overlap/area-minimising split otherwise, and a split root is replaced
by a new root over the two parts. -/
def areaEnlargement {d : Nat} (a e : AABB d) : Int := (AABB.merged a e).area - a.area

/-- Overlap enlargement of tentatively adding envelope `e` to the `i`-th
child, relative to the sibling children. -/
def overlapEnlargementAt {d : Nat} (envs : List (AABB d)) (e : AABB d) (i : Nat) : Int :=
  let ei := envs.getD i .empty
  let eiNew := AABB.merged ei e
  ((List.range envs.length).map (fun j =>
    if j = i then 0
    else eiNew.intersection_area (envs.getD j .empty) -
         ei.intersection_area (envs.getD j .empty))).sum

/-- The child index chosen by the R* descent among the envelopes `envs`. -/
def chooseSubtreeIdx {d : Nat} (useOverlap : Bool) (envs : List (AABB d)) (e : AABB d) : Nat :=
  argminIdx ((List.range envs.length).map (fun i =>
    let ai := envs.getD i .empty
    if useOverlap then
      (overlapEnlargementAt envs e i, areaEnlargement ai e, ai.area)
    else
      (areaEnlargement ai e, ai.area, 0)))

/-- The lower (or upper, when `up` is true) coordinate of a node's envelope on
a given axis, used as the split sorting key. -/
def axisCoord {α : Type} {d : Nat} (ops : ObjOps α d) (up : Bool) (axis : Nat)
    (c : RNode α d) : Int :=
  match c.envOf ops with
  | .empty => 0
  | .box l u => if h : axis < d then (if up then u ⟨axis, h⟩ else l ⟨axis, h⟩) else 0

/-- Children sorted by the chosen coordinate on the chosen axis. -/
def sortedByAxis {α : Type} {d : Nat} (ops : ObjOps α d) (up : Bool) (axis : Nat)
    (cs : List (RNode α d)) : List (RNode α d) :=
  cs.mergeSort (fun a b => decide (axisCoord ops up axis a ≤ axisCoord ops up axis b))

/-- The valid split positions for a list of `len` entries: the first group
takes `k` entries for `k` between `MIN_SIZE` and `len - MIN_SIZE`. -/
def splitPositions (p : Params) (len : Nat) : List Nat :=
  List.range' p.MIN_SIZE (len - 2 * p.MIN_SIZE + 1)

/-- The candidate (first group, second group) pairs along one sorting. -/
def splitCandidatesOf {α : Type} {d : Nat} (p : Params) (sorted : List (RNode α d)) :
    List (List (RNode α d) × List (RNode α d)) :=
  (splitPositions p sorted.length).map (fun k => (sorted.take k, sorted.drop k))

/-- All candidates on one axis: both sortings (by lower and by upper
coordinate). -/
def splitCandidatesAxis {α : Type} {d : Nat} (ops : ObjOps α d) (p : Params) (axis : Nat)
    (cs : List (RNode α d)) : List (List (RNode α d) × List (RNode α d)) :=
  splitCandidatesOf p (sortedByAxis ops false axis cs) ++
  splitCandidatesOf p (sortedByAxis ops true axis cs)

/-- The margin sum of an axis: total margin of the two groups over all valid
split positions of both sortings (the ChooseSplitAxis criterion). -/
def axisMarginSum {α : Type} {d : Nat} (ops : ObjOps α d) (p : Params) (axis : Nat)
    (cs : List (RNode α d)) : Int :=
  ((splitCandidatesAxis ops p axis cs).map (fun g =>
    (envUnion ops g.1).margin_value + (envUnion ops g.2).margin_value)).sum

/-- ChooseSplitAxis: the axis minimising the margin sum. -/
def chooseSplitAxis {α : Type} {d : Nat} (ops : ObjOps α d) (p : Params)
    (cs : List (RNode α d)) : Nat :=
  argminIdx ((List.range d).map (fun a => (axisMarginSum ops p a cs, 0, 0)))

/-- The split of an over-full entry list: on the margin-minimising axis, the
candidate minimising overlap area between the groups, with total area as the
tie-breaker (ChooseSplitIndex). -/
def splitGroups {α : Type} {d : Nat} (ops : ObjOps α d) (p : Params)
    (cs : List (RNode α d)) : List (RNode α d) × List (RNode α d) :=
  (pickMinBy (fun g =>
      ((envUnion ops g.1).intersection_area (envUnion ops g.2),
        (envUnion ops g.1).area + (envUnion ops g.2).area, 0))
      (splitCandidatesAxis ops p (chooseSplitAxis ops p cs) cs)).getD (cs, [])

/-- ForcedReinsertion: children sorted by decreasing squared distance of their
center from the node's center; the first `REINSERTION_COUNT` (the farthest)
are evicted.  Returns (remaining children, evicted children). -/
def reinsertParts {α : Type} {d : Nat} (ops : ObjOps α d) (p : Params) (env : AABB d)
    (cs : List (RNode α d)) : List (RNode α d) × List (RNode α d) :=
  let ctr := env.center2
  let sorted := cs.mergeSort (fun a b =>
    decide (dist2Pts ((b.envOf ops).center2) ctr ≤ dist2Pts ((a.envOf ops).center2) ctr))
  (sorted.drop p.REINSERTION_COUNT, sorted.take p.REINSERTION_COUNT)

/-- Result of inserting an entry below a (non-root) node: the node was
updated in place; or it split in two; or a forced reinsertion evicted whole
child entries to be reinserted at their original height. -/
inductive InsRes (α : Type) (d : Nat) : Type where
  | complete (n : RNode α d)
  | splitRes (n1 n2 : RNode α d)
  | reinsert (n : RNode α d) (orphans : List (RNode α d)) (orphanHeight : Nat)

/-- OverflowTreatment for a non-root node at height `hn` whose child list
`cs` has overflowed: forced reinsertion if this height has not yet reinserted
during the current insertion, otherwise a split. -/
def overflowTreat {α : Type} {d : Nat} (ops : ObjOps α d) (p : Params) (excluded : List Nat)
    (cs : List (RNode α d)) (hn : Nat) : InsRes α d :=
  if hn ∈ excluded then
    let g := splitGroups ops p cs
    .splitRes (.parent (envUnion ops g.1) g.1) (.parent (envUnion ops g.2) g.2)
  else
    let r := reinsertParts ops p (envUnion ops cs) cs
    .reinsert (.parent (envUnion ops r.1) r.1) r.2 (hn - 1)

/-- Result of the child-list companion of the descent: the updated child
list, alone, with a split-off sibling, or with forced-reinsertion orphans. -/
inductive RecLRes (α : Type) (d : Nat) : Type where
  | plain (cs : List (RNode α d))
  | withSplit (cs : List (RNode α d)) (extra : RNode α d)
  | withReins (cs : List (RNode α d)) (orphans : List (RNode α d)) (orphanHeight : Nat)

mutual
/-- The R* descent: place entry `e` (a subtree of height `he`) in the
(non-root) node at height `hn`: descend into the chosen subtree while the
entry belongs strictly lower, add it to the child list on arrival, and apply
OverflowTreatment on overflow.  The leaf case is unreachable on well-formed
trees and placed conservatively. -/
def insertRec {α : Type} {d : Nat} (ops : ObjOps α d) (p : Params) (excluded : List Nat)
    (e : RNode α d) (he : Nat) : RNode α d → Nat → InsRes α d
  | .leaf o, _ => .complete (.parent (envUnion ops [.leaf o, e]) [.leaf o, e])
  | .parent _ cs, hn =>
    if he + 1 < hn then
      let k := chooseSubtreeIdx (decide (hn = he + 2)) (childEnvs ops cs) (e.envOf ops)
      match insertRecL ops p excluded e he (hn - 1) k cs with
      | .withSplit newCs c2 =>
          let cs2 := newCs ++ [c2]
          if cs2.length ≤ p.MAX_SIZE then .complete (.parent (envUnion ops cs2) cs2)
          else overflowTreat ops p excluded cs2 hn
      | .withReins newCs orphans oh =>
          .reinsert (.parent (envUnion ops newCs) newCs) orphans oh
      | .plain newCs => .complete (.parent (envUnion ops newCs) newCs)
    else
      let cs2 := cs ++ [e]
      if cs2.length ≤ p.MAX_SIZE then .complete (.parent (envUnion ops cs2) cs2)
      else overflowTreat ops p excluded cs2 hn
/-- Companion of `insertRec` on the child list: insert into the `k`-th child
(at height `hc`), leaving the siblings in place; a split's second half and a
forced reinsertion's orphans are passed back to the parent. -/
def insertRecL {α : Type} {d : Nat} (ops : ObjOps α d) (p : Params) (excluded : List Nat)
    (e : RNode α d) (he hc : Nat) : Nat → List (RNode α d) → RecLRes α d
  | _, [] => .plain [e]
  | 0, c :: rest =>
      match insertRec ops p excluded e he c hc with
      | .complete c2 => .plain (c2 :: rest)
      | .splitRes c1 c2 => .withSplit (c1 :: rest) c2
      | .reinsert c2 orphans oh => .withReins (c2 :: rest) orphans oh
  | k + 1, c :: rest =>
      match insertRecL ops p excluded e he hc k rest with
      | .plain l => .plain (c :: l)
      | .withSplit l x => .withSplit (c :: l) x
      | .withReins l o oh => .withReins (c :: l) o oh
end

/-- One full insertion pass from the root.  The root never force-reinserts:
when it overflows it splits and a new root is created over the two parts (the
tree grows in height).  Returns the new root and, after a forced reinsertion
at height `oh + 1`, the orphans to reinsert at height `oh`. -/
def insertOnce {α : Type} {d : Nat} (ops : ObjOps α d) (p : Params) (excluded : List Nat)
    (e : RNode α d) (he : Nat) (root : RNode α d) :
    RNode α d × Option (List (RNode α d) × Nat) :=
  match root with
  | .leaf o => (.parent (envUnion ops [.leaf o, e]) [.leaf o, e], none)
  | .parent _ cs =>
    let hr := heightLB cs + 1
    if he + 1 < hr then
      let k := chooseSubtreeIdx (decide (hr = he + 2)) (childEnvs ops cs) (e.envOf ops)
      match insertRecL ops p excluded e he (hr - 1) k cs with
      | .withSplit newCs c2 =>
          let cs2 := newCs ++ [c2]
          if cs2.length ≤ p.MAX_SIZE then (.parent (envUnion ops cs2) cs2, none)
          else
            let g := splitGroups ops p cs2
            let n1 : RNode α d := .parent (envUnion ops g.1) g.1
            let n2 : RNode α d := .parent (envUnion ops g.2) g.2
            (.parent (envUnion ops [n1, n2]) [n1, n2], none)
      | .withReins newCs orphans oh => (.parent (envUnion ops newCs) newCs, some (orphans, oh))
      | .plain newCs => (.parent (envUnion ops newCs) newCs, none)
    else
      let cs2 := cs ++ [e]
      if cs2.length ≤ p.MAX_SIZE then (.parent (envUnion ops cs2) cs2, none)
      else
        let g := splitGroups ops p cs2
        let n1 : RNode α d := .parent (envUnion ops g.1) g.1
        let n2 : RNode α d := .parent (envUnion ops g.2) g.2
        (.parent (envUnion ops [n1, n2]) [n1, n2], none)

/-- The pending-reinsertion loop of one insertion: process pending entries
(each tagged with its original height), sharing the set of heights that have
already force-reinserted.  `fuel` bounds the number of passes; `none` reports
fuel exhaustion (the spec gives no termination argument for the reinsertion
cascade, so the model makes the bound explicit). -/
def insertLoop {α : Type} {d : Nat} (ops : ObjOps α d) (p : Params) :
    Nat → List Nat → List (RNode α d × Nat) → RNode α d → Option (RNode α d)
  | _, _, [], root => some root
  | 0, _, _ :: _, _ => none
  | fuel + 1, excluded, (e, he) :: rest, root =>
      match insertOnce ops p excluded e he root with
      | (root2, none) => insertLoop ops p fuel excluded rest root2
      | (root2, some (orphans, oh)) =>
          insertLoop ops p fuel ((oh + 1) :: excluded)
            (orphans.map (fun o => (o, oh)) ++ rest) root2

/-! ## Insertion: element bookkeeping -/
/-- The elements carried by an insertion result: the updated subtree plus any
split sibling or pending orphans. -/
def insResElems {α : Type} {d : Nat} : InsRes α d → List α
  | .complete n => n.elems
  | .splitRes n1 n2 => n1.elems ++ n2.elems
  | .reinsert n orph _ => n.elems ++ elemsL orph

/-- The elements carried by an `insertRecL` result. -/
def recLElems {α : Type} {d : Nat} : RecLRes α d → List α
  | .plain l => elemsL l
  | .withSplit l x => elemsL l ++ x.elems
  | .withReins l o _ => elemsL l ++ elemsL o

/-- The elements carried by an `insertOnce` result (tree plus pending
orphans). -/
def onceElems {α : Type} {d : Nat} (r : RNode α d × Option (List (RNode α d) × Nat)) :
    List α :=
  r.1.elems ++ (match r.2 with | some o => elemsL o.1 | none => [])

/-! ## The tree structure and its API glue

These definitions are translated from `src/rstar/src/rtree.rs` (the code under
`src/`): the tree is a root parent node plus a cached element count; `insert`
runs the insertion strategy and increments `size`; the locate queries
instantiate the selection traversal with the spec's predicate pairs; `contains`
checks equality over `locate_in_envelope` of the query's envelope. -/
structure RTree (α : Type) (d : Nat) where
  root : RNode α d
  size : Nat

/-- `RTree::new` / `new_with_params`: an empty root parent and size 0. -/
def RTree.new (α : Type) (d : Nat) : RTree α d := ⟨.parent .empty [], 0⟩

/-- `RTree::iter`: traversal with `SelectAllFunc`. -/
def RTree.iter {α : Type} {d : Nat} (ops : ObjOps α d) (t : RTree α d) : List α :=
  selNode ops (fun _ => true) (fun _ => true) t.root

/-- `RTree::locate_in_envelope`: the spec's SelectInEnvelopeContained
predicate pair (descend iff E intersects the node envelope, yield iff E
contains the object envelope). -/
def RTree.locate_in_envelope {α : Type} {d : Nat} (ops : ObjOps α d) (t : RTree α d)
    (E : AABB d) : List α :=
  selNode ops (fun env => E.intersects env) (fun x => E.contains_envelope (ops.envelope x)) t.root

/-- `RTree::locate_in_envelope_intersecting`: the spec's
SelectInEnvelopeIntersecting predicate pair. -/
def RTree.locate_in_envelope_intersecting {α : Type} {d : Nat} (ops : ObjOps α d)
    (t : RTree α d) (E : AABB d) : List α :=
  selNode ops (fun env => E.intersects env) (fun x => E.intersects (ops.envelope x)) t.root

/-- `RTree::locate_all_at_point`: the spec's SelectAtPoint predicate pair. -/
def RTree.locate_all_at_point {α : Type} {d : Nat} (ops : ObjOps α d) (t : RTree α d)
    (pt : Pt d) : List α :=
  selNode ops (fun env => env.contains_point pt) (fun x => ops.contains_point x pt) t.root

/-- `RTree::locate_at_point`: the first element of `locate_all_at_point`. -/
def RTree.locate_at_point {α : Type} {d : Nat} (ops : ObjOps α d) (t : RTree α d)
    (pt : Pt d) : Option α :=
  (t.locate_all_at_point ops pt).head?

/-- `RTree::contains`: some element of `locate_in_envelope(t.envelope())`
equals the query. -/
def RTree.contains {α : Type} {d : Nat} [DecidableEq α] (ops : ObjOps α d) (t : RTree α d)
    (x : α) : Bool :=
  (t.locate_in_envelope ops (ops.envelope x)).any (fun y => decide (y = x))

/-- `RTree::insert`: run the insertion strategy (here the fueled R* pending
loop starting from the new leaf) and increment `size`. -/
def RTree.insert {α : Type} {d : Nat} (ops : ObjOps α d) (p : Params) (fuel : Nat)
    (t : RTree α d) (x : α) : Option (RTree α d) :=
  (insertLoop ops p fuel [] [(.leaf x, 0)] t.root).map (fun r => ⟨r, t.size + 1⟩)

/-- What the invariants say of each insertion result at the node's height. -/
def insResWf {α : Type} {d : Nat} (ops : ObjOps α d) (m M : Nat) :
    InsRes α d → Nat → Prop
  | .complete n, hn => RNode.wfAt ops m M n hn = true
  | .splitRes n1 n2, hn =>
      RNode.wfAt ops m M n1 hn = true ∧ RNode.wfAt ops m M n2 hn = true
  | .reinsert n orph oh, hn =>
      RNode.wfAt ops m M n hn = true ∧
      (∀ o ∈ orph, RNode.wfAt ops m M o oh = true) ∧ oh + 1 ≤ hn

/-- What the invariants say of each child-list companion result. -/
def recLWf {α : Type} {d : Nat} (ops : ObjOps α d) (m M : Nat) :
    RecLRes α d → Nat → Nat → Prop
  | .plain l, hc, len => wfAtL ops m M l hc = true ∧ l.length = len
  | .withSplit l x, hc, len =>
      wfAtL ops m M l hc = true ∧ RNode.wfAt ops m M x hc = true ∧ l.length = len
  | .withReins l o oh, hc, len =>
      wfAtL ops m M l hc = true ∧ (∀ y ∈ o, RNode.wfAt ops m M y oh = true) ∧
      oh + 1 ≤ hc ∧ l.length = len

/-- The root node's invariants (spec section 3): a parent whose envelope is
the union of its children's envelopes, with between 0 and `MAX_SIZE` children,
all of them satisfying the full invariants at a common height. -/
def rootWfB {α : Type} {d : Nat} (ops : ObjOps α d) (p : Params) : RNode α d → Bool
  | .leaf _ => false
  | .parent e cs =>
      decide (e = envUnion ops cs) && decide (cs.length ≤ p.MAX_SIZE) &&
      wfAtL ops p.MIN_SIZE p.MAX_SIZE cs (heightLB cs)

/-- The whole-tree invariant: a well-formed root and a size field equal to
the number of leaf descendants (spec section 3, invariants 1-5). -/
def RTree.WF {α : Type} {d : Nat} (ops : ObjOps α d) (p : Params) (t : RTree α d) : Prop :=
  rootWfB ops p t.root = true ∧ t.size = t.root.leafCount

/-! ## Removal

Modelled from the spec (section 4.4; the removal module is not under `src/`):
an envelope-guided descent with a predicate pair, removing the first matching
leaf in traversal order; a non-root parent left with fewer than `MIN_SIZE`
children is dissolved and its leaf descendants are collected as orphans; after
the unwind the orphans are reinserted at the leaf level through the standard
R* insertion path, and a root left with exactly one parent child is replaced
by that child. -/
/-- The spec's removal selector: `should_descend(envelope)` and
`should_remove(object)`. -/
structure RemovalSel (α : Type) (d : Nat) where
  should_descend : AABB d → Bool
  should_remove : α → Bool

/-- Result of removal below a non-root node: nothing removed, or the removed
object together with the updated node (`none` when the node dissolved) and
the orphaned leaf objects collected from dissolved nodes. -/
inductive RemRes (α : Type) (d : Nat) : Type where
  | notFound
  | removed (obj : α) (newNode : Option (RNode α d)) (orphans : List α)

mutual
/-- Removal from a non-root node.  A leaf is removed when `should_remove`
holds (reported as a dissolved node); a parent delegates to its child list and
dissolves when left under-full, collecting its leaf descendants as orphans. -/
def removeNode {α : Type} {d : Nat} (ops : ObjOps α d) (p : Params) (sel : RemovalSel α d) :
    RNode α d → RemRes α d
  | .leaf o => if sel.should_remove o then .removed o none [] else .notFound
  | .parent _ cs =>
      match removeRecL ops p sel cs with
      | none => .notFound
      | some r =>
          if r.2.1.length < p.MIN_SIZE then
            .removed r.1 none (elemsL r.2.1 ++ r.2.2)
          else
            .removed r.1 (some (.parent (envUnion ops r.2.1) r.2.1)) r.2.2
/-- Try the children in order; descend only where `should_descend` holds on
the child's envelope; the first success wins. -/
def removeRecL {α : Type} {d : Nat} (ops : ObjOps α d) (p : Params) (sel : RemovalSel α d) :
    List (RNode α d) → Option (α × List (RNode α d) × List α)
  | [] => none
  | c :: rest =>
      if sel.should_descend (c.envOf ops) then
        match removeNode ops p sel c with
        | .notFound =>
            match removeRecL ops p sel rest with
            | none => none
            | some r => some (r.1, c :: r.2.1, r.2.2)
        | .removed obj none orphans => some (obj, rest, orphans)
        | .removed obj (some c2) orphans => some (obj, c2 :: rest, orphans)
      else
        match removeRecL ops p sel rest with
        | none => none
        | some r => some (r.1, c :: r.2.1, r.2.2)
end

/-- Removal from the root (`removal::remove` in the source): the root is
never dissolved; its envelope is recomputed after a successful removal. -/
def removeRoot {α : Type} {d : Nat} (ops : ObjOps α d) (p : Params) (sel : RemovalSel α d)
    (root : RNode α d) : Option (α × RNode α d × List α) :=
  match root with
  | .leaf _ => none
  | .parent _ cs =>
      match removeRecL ops p sel cs with
      | none => none
      | some r => some (r.1, .parent (envUnion ops r.2.1) r.2.1, r.2.2)

/-- Reinsert each orphan at the leaf level through the standard insertion
path, each with a fresh forced-reinsertion set. -/
def reinsertAll {α : Type} {d : Nat} (ops : ObjOps α d) (p : Params) (fuel : Nat) :
    List α → RNode α d → Option (RNode α d)
  | [], root => some root
  | o :: rest, root =>
      match insertLoop ops p fuel [] [(.leaf o, 0)] root with
      | none => none
      | some root2 => reinsertAll ops p fuel rest root2

/-- Spec step 5: a root with exactly one parent child is replaced by that
child (the tree shrinks in height). -/
def shrinkRoot {α : Type} {d : Nat} : RNode α d → RNode α d
  | .parent _ [RNode.parent e2 cs2] => .parent e2 cs2
  | r => r

/-- `RTree::remove_with_selector` with the source glue: the removed object
(or `none`), the updated tree, and the `size` decrement on success; `none`
altogether reports reinsertion fuel exhaustion. -/
def RTree.remove_with_selector {α : Type} {d : Nat} (ops : ObjOps α d) (p : Params)
    (fuel : Nat) (sel : RemovalSel α d) (t : RTree α d) : Option (Option α × RTree α d) :=
  match removeRoot ops p sel t.root with
  | none => some (none, t)
  | some r =>
      match reinsertAll ops p fuel r.2.2 r.2.1 with
      | none => none
      | some root3 => some (some r.1, ⟨shrinkRoot root3, t.size - 1⟩)

/-- The spec's SelectAtPoint predicate pair: descend iff the node envelope
contains the point; remove iff the object contains the point. -/
def SelectAtPointFunction {α : Type} {d : Nat} (ops : ObjOps α d) (pt : Pt d) :
    RemovalSel α d :=
  ⟨fun env => env.contains_point pt, fun x => ops.contains_point x pt⟩

/-- The spec's SelectEquals predicate pair: descend iff the node envelope
contains the query's envelope; remove iff the object equals it. -/
def SelectEqualsFunction {α : Type} {d : Nat} [DecidableEq α] (ops : ObjOps α d) (x : α) :
    RemovalSel α d :=
  ⟨fun env => env.contains_envelope (ops.envelope x), fun y => decide (y = x)⟩

/-- `RTree::remove_at_point`. -/
def RTree.remove_at_point {α : Type} {d : Nat} (ops : ObjOps α d) (p : Params) (fuel : Nat)
    (t : RTree α d) (pt : Pt d) : Option (Option α × RTree α d) :=
  t.remove_with_selector ops p fuel (SelectAtPointFunction ops pt)

/-- `RTree::remove` (removal by equality). -/
def RTree.remove {α : Type} {d : Nat} [DecidableEq α] (ops : ObjOps α d) (p : Params)
    (fuel : Nat) (t : RTree α d) (x : α) : Option (Option α × RTree α d) :=
  t.remove_with_selector ops p fuel (SelectEqualsFunction ops x)

/-! ## Bulk loading (OMT)

Modelled from the spec (section 4.2; the bulk-load module is not under
`src/`): at most `MAX_SIZE` objects become a parent of leaves; otherwise the
objects are sorted by their envelope center on the current axis (axis = level
mod D), split into contiguous slabs of the target subtree size
`MAX_SIZE ^ (h - 1)` (`h` the target tree depth, the last slab may be
smaller), and each slab is loaded recursively with the next axis; the slab
roots are wrapped into a parent. -/
/-- Fueled contiguous chunking (the fuel, instantiated with the list length,
only serves the termination argument). -/
def chunksAux {β : Type} (s : Nat) : Nat → List β → List (List β)
  | _, [] => []
  | 0, l => [l]
  | fuel + 1, l => l.take s :: chunksAux s fuel (l.drop s)

def chunks {β : Type} (s : Nat) (l : List β) : List (List β) := chunksAux s l.length l

/-- The doubled center coordinate of an object's envelope on axis
`axis mod d` (the OMT sorting key). -/
def centerCoord {α : Type} {d : Nat} (ops : ObjOps α d) (axis : Nat) (x : α) : Int :=
  match ops.envelope x with
  | .empty => 0
  | .box l u =>
      if h : 0 < d then l ⟨axis % d, Nat.mod_lt _ h⟩ + u ⟨axis % d, Nat.mod_lt _ h⟩ else 0

/-- The recursive OMT loader (fuel instantiated with the object count). -/
def bulkAux {α : Type} {d : Nat} (ops : ObjOps α d) (p : Params) :
    Nat → Nat → List α → RNode α d
  | 0, _, objs =>
      .parent (envUnion ops (objs.map RNode.leaf)) (objs.map RNode.leaf)
  | fuel + 1, axis, objs =>
      if objs.length ≤ p.MAX_SIZE then
        .parent (envUnion ops (objs.map RNode.leaf)) (objs.map RNode.leaf)
      else
        let sorted := objs.mergeSort (fun a b =>
          decide (centerCoord ops axis a ≤ centerCoord ops axis b))
        let subs := (chunks (p.MAX_SIZE ^ (Nat.clog p.MAX_SIZE objs.length - 1)) sorted).map
          (bulkAux ops p fuel (axis + 1))
        .parent (envUnion ops subs) subs

/-- `RTree::bulk_load_with_params` (source glue): the bulk-loaded root with
`size` set to the input length. -/
def RTree.bulk_load_with_params {α : Type} {d : Nat} (ops : ObjOps α d) (p : Params)
    (objs : List α) : RTree α d :=
  ⟨bulkAux ops p objs.length 0 objs, objs.length⟩

/-- `RTree::bulk_load` (source glue): bulk loading with default parameters
deferred to `bulk_load_with_params`. -/
def RTree.bulk_load {α : Type} {d : Nat} (ops : ObjOps α d) (p : Params)
    (objs : List α) : RTree α d :=
  RTree.bulk_load_with_params ops p objs

/-- Sequential insertion of a list of objects (the reference side of the
bulk-load equivalence law). -/
def seqInsert {α : Type} {d : Nat} (ops : ObjOps α d) (p : Params) (fuel : Nat) :
    List α → RTree α d → Option (RTree α d)
  | [], t => some t
  | x :: rest, t =>
      match t.insert ops p fuel x with
      | none => none
      | some t2 => seqInsert ops p fuel rest t2

/-! ## Nearest neighbour

Modelled from the spec (section 4.6; the nearest-neighbour module is not
under `src/`): best-first search over a min-priority queue keyed by squared
distance from the query point to each candidate's envelope; popped parents
push their children, popped leaves are re-queued with their exact object
distance, and a popped exact entry is emitted.  The queue is a list and the
pop scans for the first minimal key. -/
/-- A queue item: a tree node (keyed by envelope distance) or an object
re-queued with its exact distance (the spec's is-exact flag). -/
inductive QEItem (α : Type) (d : Nat) : Type where
  | node (n : RNode α d)
  | exactObj (o : α)

structure QEntry (α : Type) (d : Nat) where
  key : Int
  item : QEItem α d

/-- Pop the first entry with minimal key. -/
def popMinQ {α : Type} {d : Nat} : List (QEntry α d) → Option (QEntry α d × List (QEntry α d))
  | [] => none
  | e :: rest =>
      match popMinQ rest with
      | none => some (e, [])
      | some m => if e.key ≤ m.1.key then some (e, rest) else some (m.1, e :: m.2)

/-- Termination weight: inner nodes weigh twice their node count, exact
entries weigh one. -/
def qWeight {α : Type} {d : Nat} (e : QEntry α d) : Nat :=
  match e.item with
  | .node n => 2 * n.nodeCount
  | .exactObj _ => 1

def qWeightL {α : Type} {d : Nat} (l : List (QEntry α d)) : Nat := (l.map qWeight).sum

/-- The objects represented by a queue entry. -/
def qElems {α : Type} {d : Nat} : QEntry α d → List α
  | ⟨_, .node n⟩ => n.elems
  | ⟨_, .exactObj o⟩ => [o]

def qElemsL {α : Type} {d : Nat} (l : List (QEntry α d)) : List α := (l.map qElems).flatten

/-- The fueled best-first loop, emitting objects in pop order. -/
def nnRunF {α : Type} {d : Nat} (ops : ObjOps α d) (q : Pt d) :
    Nat → List (QEntry α d) → List α
  | 0, _ => []
  | fuel + 1, queue =>
      match popMinQ queue with
      | none => []
      | some (e, rest) =>
          match e.item with
          | .exactObj o => o :: nnRunF ops q fuel rest
          | .node (.leaf o) => nnRunF ops q fuel (⟨ops.distance_2 o q, .exactObj o⟩ :: rest)
          | .node (.parent env cs) =>
              nnRunF ops q fuel
                (cs.map (fun c => ⟨(c.envOf ops).min_distance_2 q, .node c⟩) ++ rest)

/-- `RTree::nearest_neighbor_iter`, as the full emitted sequence: the
best-first run seeded with the root, with enough fuel to drain the queue. -/
def RTree.nearest_neighbor_iter {α : Type} {d : Nat} (ops : ObjOps α d) (t : RTree α d)
    (q : Pt d) : List α :=
  nnRunF ops q (2 * t.root.nodeCount + 1)
    [⟨(t.root.envOf ops).min_distance_2 q, .node t.root⟩]

/-- The single-nearest search of the spec: the first object popped with its
exact distance. -/
def nearest_neighborAux {α : Type} {d : Nat} (ops : ObjOps α d) (root : RNode α d)
    (q : Pt d) : Option α :=
  (nnRunF ops q (2 * root.nodeCount + 1)
    [⟨(root.envOf ops).min_distance_2 q, .node root⟩]).head?

/-- `RTree::nearest_neighbor` (source glue): `none` on an empty tree,
otherwise the single-nearest search with the iterator head as fallback. -/
def RTree.nearest_neighbor {α : Type} {d : Nat} (ops : ObjOps α d) (t : RTree α d)
    (q : Pt d) : Option α :=
  if 0 < t.size then
    (nearest_neighborAux ops t.root q).orElse
      (fun _ => (t.nearest_neighbor_iter ops q).head?)
  else none

mutual
/-- The search well-formedness of a subtree: every envelope is a valid box
and every parent's envelope is the union of its children's (what the
best-first key monotonicity needs). -/
def RNode.nnOk {α : Type} {d : Nat} (ops : ObjOps α d) : RNode α d → Bool
  | .leaf o => (ops.envelope o).validB
  | .parent e cs => e.validB && decide (e = envUnion ops cs) && nnOkL ops cs
def nnOkL {α : Type} {d : Nat} (ops : ObjOps α d) : List (RNode α d) → Bool
  | [] => true
  | c :: cs => c.nnOk ops && nnOkL ops cs
end

/-- Those entries the sortedness invariant tracks: inner entries are keyed by
the envelope distance of a search-well-formed node, exact entries by their
object distance. -/
def entryOK {α : Type} {d : Nat} (ops : ObjOps α d) (q : Pt d) : QEntry α d → Prop
  | ⟨k, .node n⟩ => k = (n.envOf ops).min_distance_2 q ∧ n.nnOk ops = true
  | ⟨k, .exactObj o⟩ => k = ops.distance_2 o q

/-! ## Reachable trees (the public mutating interface) -/
/-- The trees reachable from an empty tree by the public mutating operations:
`new`, `bulk_load`, `insert`, and the removal family (given through the
generic selector form that `remove` and `remove_at_point` instantiate). -/
inductive Reachable {α : Type} {d : Nat} (ops : ObjOps α d) (p : Params) :
    RTree α d → Prop where
  | new : Reachable ops p (RTree.new α d)
  | bulk_load (objs : List α) : Reachable ops p (RTree.bulk_load ops p objs)
  | insert {t t2 : RTree α d} (fuel : Nat) (x : α) : Reachable ops p t →
      t.insert ops p fuel x = some t2 → Reachable ops p t2
  | remove {t t2 : RTree α d} {res : Option α} (fuel : Nat) (sel : RemovalSel α d) :
      Reachable ops p t → t.remove_with_selector ops p fuel sel = some (res, t2) →
      Reachable ops p t2

/-! ## Checked construction -/
/-- Modelled from the spec: the configuration-error signal of the error model
(section 7). -/
inductive ConfigError : Type where
  | invalidParams

/-- Modelled from the spec: `RTree::new_with_params` checks the parameter
constraints at construction time (section 7: MIN_SIZE below 2, MAX_SIZE below
twice MIN_SIZE, or REINSERTION_COUNT outside [1, MAX_SIZE - MIN_SIZE + 1] are
detected at construction) and signals a configuration error instead of
building a tree; the parameter-verification module is not under `src/`, while
the glue in `src/rstar/src/rtree.rs` builds the empty tree. -/
def RTree.new_with_params (α : Type) (d : Nat) (p : Params) :
    Except ConfigError (RTree α d) :=
  if p.MIN_SIZE < 2 ∨ p.MAX_SIZE < 2 * p.MIN_SIZE ∨ p.REINSERTION_COUNT < 1 ∨
      p.MAX_SIZE - p.MIN_SIZE + 1 < p.REINSERTION_COUNT then
    Except.error ConfigError.invalidParams
  else Except.ok (RTree.new α d)

/-! ## The LineWithData primitive

Translated from `src/rstar/src/primitives/line_with_data.rs`, over rational
scalars (the scalar type is generic in the source; the spec design notes
allow proving over a substituted scalar, and the rationals make the division
in `project_point` exact). -/
/-- A point with rational coordinates. -/
abbrev Ptq (d : Nat) := Fin d → Rat

/-- Componentwise difference (`Point::sub`). -/
def Ptq.sub {d : Nat} (a b : Ptq d) : Ptq d := fun i => a i - b i

/-- Componentwise sum (`Point::add`). -/
def Ptq.add {d : Nat} (a b : Ptq d) : Ptq d := fun i => a i + b i

/-- Scalar multiple (`Point::mul`). -/
def Ptq.mul {d : Nat} (a : Ptq d) (s : Rat) : Ptq d := fun i => a i * s

/-- Dot product (`PointExt::dot`). -/
def Ptq.dot {d : Nat} (a b : Ptq d) : Rat :=
  Finset.univ.sum (fun i => a i * b i)

/-- Squared length (`PointExt::length_2`). -/
def Ptq.length_2 {d : Nat} (a : Ptq d) : Rat := a.dot a

/-- `LineWithData`: a line between two points with associated data (the
source field `from` is rendered `fromP`, `from` being reserved in Lean; `to`
becomes `toP` to match). -/
structure LineWithData (T : Type) (d : Nat) where
  data : T
  fromP : Ptq d
  toP : Ptq d

/-- `LineWithData::length_2`: the squared length of the line. -/
def LineWithData.length_2 {T : Type} {d : Nat} (l : LineWithData T d) : Rat :=
  (l.fromP.sub l.toP).length_2

/-- `LineWithData::project_point`: the scalar projection of the query point
onto the line direction, divided by the squared direction length. -/
def LineWithData.project_point {T : Type} {d : Nat} (l : LineWithData T d)
    (query_point : Ptq d) : Rat :=
  let dir := l.toP.sub l.fromP
  ((query_point.sub l.fromP).dot dir) / dir.length_2

/-- `LineWithData::nearest_point`: the projection clamped to the segment. -/
def LineWithData.nearest_point {T : Type} {d : Nat} (l : LineWithData T d)
    (query_point : Ptq d) : Ptq d :=
  let dir := l.toP.sub l.fromP
  let s := l.project_point query_point
  if 0 < s ∧ s < 1 then l.fromP.add (dir.mul s)
  else if s ≤ 0 then l.fromP
  else l.toP

/-- `LineWithData::distance_2` (the `PointDistance` implementation): the
squared distance to the nearest point of the segment. -/
def LineWithData.distance_2 {T : Type} {d : Nat} (l : LineWithData T d)
    (point : Ptq d) : Rat :=
  ((l.nearest_point point).sub point).length_2

/-! ## Concrete instances for evaluation -/
/-- One-dimensional integer point objects: the envelope is the degenerate box
at the point, the distance the squared coordinate difference, containment the
coordinate equality. -/
def wOps : ObjOps Int 1 :=
  ⟨fun x => AABB.box (fun _ => x) (fun _ => x),
   fun x q => (x - q 0) ^ 2,
   fun x q => decide (x = q 0)⟩

/-- The empty integer tree. -/
def wEmpty : RTree Int 1 := RTree.new Int 1

/-- The tree holding the single object 5. -/
def wOne : RTree Int 1 := (wEmpty.insert wOps DefaultParams 9 5).getD wEmpty

/-- The tree after removing 5 again. -/
def wRemoved : RTree Int 1 :=
  ((wOne.remove wOps DefaultParams 9 5).getD (none, wOne)).2

/-- The tree built by inserting 5 then 7 sequentially. -/
def wSeq : RTree Int 1 :=
  (seqInsert wOps DefaultParams 9 [5, 7] wEmpty).getD wEmpty

/-- A concrete non-degenerate line. -/
def wLine : LineWithData Unit 1 := ⟨(), fun _ => 0, fun _ => 1⟩

/-- A concrete degenerate line. -/
def wLinePt : LineWithData Unit 1 := ⟨(), fun _ => 2, fun _ => 2⟩

/-! ## Theorems -/

/-! ## Envelope lemmas -/
theorem AABB.contains_envelope_refl {d : Nat} (a : AABB d) : a.contains_envelope a = true := by
  cases a with
  | empty => rfl
  | box l u => simp [AABB.contains_envelope]

theorem AABB.merged_contains_left {d : Nat} (a b : AABB d) :
    (AABB.merged a b).contains_envelope a = true := by
  cases a with
  | empty => cases b <;> simp [AABB.merged, AABB.contains_envelope]
  | box l1 u1 =>
    cases b with
    | empty => simp [AABB.merged, AABB.contains_envelope_refl]
    | box l2 u2 =>
      simp only [AABB.merged, AABB.contains_envelope, decide_eq_true_eq]
      intro i
      exact ⟨min_le_left _ _, le_max_left _ _⟩

theorem AABB.merged_contains_right {d : Nat} (a b : AABB d) :
    (AABB.merged a b).contains_envelope b = true := by
  cases b with
  | empty => cases a <;> simp [AABB.merged, AABB.contains_envelope]
  | box l2 u2 =>
    cases a with
    | empty => simp [AABB.merged, AABB.contains_envelope_refl]
    | box l1 u1 =>
      simp only [AABB.merged, AABB.contains_envelope, decide_eq_true_eq]
      intro i
      exact ⟨min_le_right _ _, le_max_right _ _⟩

theorem AABB.contains_envelope_trans {d : Nat} {a b c : AABB d}
    (hab : a.contains_envelope b = true) (hbc : b.contains_envelope c = true) :
    a.contains_envelope c = true := by
  cases c with
  | empty => cases a <;> simp [AABB.contains_envelope]
  | box l3 u3 =>
    cases b with
    | empty => simp [AABB.contains_envelope] at hbc
    | box l2 u2 =>
      cases a with
      | empty => simp [AABB.contains_envelope] at hab
      | box l1 u1 =>
        simp only [AABB.contains_envelope, decide_eq_true_eq] at hab hbc ⊢
        intro i
        exact ⟨le_trans (hab i).1 (hbc i).1, le_trans (hbc i).2 (hab i).2⟩

theorem AABB.intersects_mono {d : Nat} {E a b : AABB d}
    (hc : b.contains_envelope a = true) (hi : E.intersects a = true) :
    E.intersects b = true := by
  cases a with
  | empty => cases E <;> simp [AABB.intersects] at hi
  | box l2 u2 =>
    cases E with
    | empty => simp [AABB.intersects] at hi
    | box l1 u1 =>
      cases b with
      | empty => simp [AABB.contains_envelope] at hc
      | box l3 u3 =>
        simp only [AABB.intersects, AABB.contains_envelope, decide_eq_true_eq] at hc hi ⊢
        intro i
        exact ⟨le_trans (hi i).1 (hc i).2, le_trans (hc i).1 (hi i).2⟩

theorem AABB.intersects_of_contains {d : Nat} {E a : AABB d}
    (hv : a.validB = true) (hc : E.contains_envelope a = true) :
    E.intersects a = true := by
  cases a with
  | empty => simp [AABB.validB] at hv
  | box l2 u2 =>
    cases E with
    | empty => simp [AABB.contains_envelope] at hc
    | box l1 u1 =>
      simp only [AABB.validB, AABB.contains_envelope, AABB.intersects,
        decide_eq_true_eq] at hv hc ⊢
      intro i
      exact ⟨le_trans (hc i).1 (hv i), le_trans (hv i) (hc i).2⟩

theorem AABB.axDist_nonneg (l u t : Int) : 0 ≤ AABB.axDist l u t :=
  le_max_of_le_right (le_max_right _ _)

theorem AABB.axDist_mono {l1 u1 l2 u2 t : Int} (hl : l1 ≤ l2) (hu : u2 ≤ u1) :
    AABB.axDist l1 u1 t ≤ AABB.axDist l2 u2 t := by
  unfold AABB.axDist
  apply max_le_max (by omega)
  apply max_le_max (by omega) le_rfl

theorem AABB.min_distance_2_mono {d : Nat} {a b : AABB d} (p : Pt d)
    (hne : a ≠ AABB.empty) (hc : b.contains_envelope a = true) :
    b.min_distance_2 p ≤ a.min_distance_2 p := by
  cases a with
  | empty => exact absurd rfl hne
  | box l2 u2 =>
    cases b with
    | empty => simp [AABB.contains_envelope] at hc
    | box l1 u1 =>
      simp only [AABB.contains_envelope, decide_eq_true_eq] at hc
      simp only [AABB.min_distance_2]
      apply Finset.sum_le_sum
      intro i _
      have h1 : 0 ≤ AABB.axDist (l1 i) (u1 i) (p i) := AABB.axDist_nonneg _ _ _
      have h2 : AABB.axDist (l1 i) (u1 i) (p i) ≤ AABB.axDist (l2 i) (u2 i) (p i) :=
        AABB.axDist_mono (hc i).1 (hc i).2
      have := sq_le_sq' (by omega) h2
      simpa [sq] using this

theorem AABB.merged_validB_left {d : Nat} {a : AABB d} (b : AABB d)
    (ha : a.validB = true) : (AABB.merged a b).validB = true := by
  cases a with
  | empty => simp [AABB.validB] at ha
  | box l1 u1 =>
    cases b with
    | empty => simpa [AABB.merged] using ha
    | box l2 u2 =>
      simp only [AABB.merged, AABB.validB, decide_eq_true_eq] at ha ⊢
      intro i
      exact le_trans (min_le_left _ _) (le_trans (ha i) (le_max_left _ _))

theorem AABB.merged_validB_right {d : Nat} (a : AABB d) {b : AABB d}
    (hb : b.validB = true) : (AABB.merged a b).validB = true := by
  cases b with
  | empty => simp [AABB.validB] at hb
  | box l2 u2 =>
    cases a with
    | empty => simpa [AABB.merged] using hb
    | box l1 u1 =>
      simp only [AABB.merged, AABB.validB, decide_eq_true_eq] at hb ⊢
      intro i
      exact le_trans (min_le_right _ _) (le_trans (hb i) (le_max_right _ _))

theorem envMergeList_contains {d : Nat} {l : List (AABB d)} {a : AABB d} (h : a ∈ l) :
    (envMergeList l).contains_envelope a = true := by
  induction l with
  | nil => cases h
  | cons b l ih =>
    rcases List.mem_cons.mp h with rfl | h
    · exact AABB.merged_contains_left _ _
    · exact AABB.contains_envelope_trans (AABB.merged_contains_right _ _) (ih h)

theorem envMergeList_validB {d : Nat} {l : List (AABB d)} {a : AABB d} (ha : a ∈ l)
    (hv : a.validB = true) : (envMergeList l).validB = true := by
  induction l with
  | nil => cases ha
  | cons b l ih =>
    rcases List.mem_cons.mp ha with rfl | ha
    · exact AABB.merged_validB_left _ hv
    · exact AABB.merged_validB_right _ (ih ha)

/-! A handmade induction principle for nodes (the nested `List` field keeps the
default one from quantifying over children). -/
mutual
theorem RNode.strongInd {α : Type} {d : Nat} {P : RNode α d → Prop}
    (hl : ∀ o, P (.leaf o)) (hp : ∀ e cs, (∀ c ∈ cs, P c) → P (.parent e cs)) :
    ∀ n, P n
  | .leaf o => hl o
  | .parent e cs => hp e cs (strongIndL hl hp cs)
theorem strongIndL {α : Type} {d : Nat} {P : RNode α d → Prop}
    (hl : ∀ o, P (.leaf o)) (hp : ∀ e cs, (∀ c ∈ cs, P c) → P (.parent e cs)) :
    ∀ l : List (RNode α d), ∀ c ∈ l, P c
  | c :: cs, x, h => by
    rcases List.mem_cons.mp h with h | h
    · exact h ▸ RNode.strongInd hl hp c
    · exact strongIndL hl hp cs x h
end

/-! Basic list-function lemmas. -/
theorem elemsL_append {α : Type} {d : Nat} (l1 l2 : List (RNode α d)) :
    elemsL (l1 ++ l2) = elemsL l1 ++ elemsL l2 := by
  induction l1 with
  | nil => simp [elemsL]
  | cons c cs ih => simp [elemsL, ih]

theorem elemsL_eq_flatten {α : Type} {d : Nat} (l : List (RNode α d)) :
    elemsL l = (l.map RNode.elems).flatten := by
  induction l with
  | nil => simp [elemsL]
  | cons c cs ih => simp [elemsL, ih]

theorem elemsL_perm {α : Type} {d : Nat} {l1 l2 : List (RNode α d)} (h : l1.Perm l2) :
    (elemsL l1).Perm (elemsL l2) := by
  rw [elemsL_eq_flatten, elemsL_eq_flatten]
  exact (h.map RNode.elems).flatten

theorem wfAtL_mem {α : Type} {d : Nat} {ops : ObjOps α d} {m M : Nat}
    {l : List (RNode α d)} {h : Nat} (hall : wfAtL ops m M l h = true) :
    ∀ c ∈ l, RNode.wfAt ops m M c h = true := by
  induction l with
  | nil => intro c hc; cases hc
  | cons c cs ih =>
    simp only [wfAtL, Bool.and_eq_true] at hall
    intro x hx
    rcases List.mem_cons.mp hx with rfl | hx
    · exact hall.1
    · exact ih hall.2 x hx

theorem wfAtL_of_mem {α : Type} {d : Nat} {ops : ObjOps α d} {m M : Nat}
    {l : List (RNode α d)} {h : Nat} (hall : ∀ c ∈ l, RNode.wfAt ops m M c h = true) :
    wfAtL ops m M l h = true := by
  induction l with
  | nil => rfl
  | cons c cs ih =>
    simp only [wfAtL, Bool.and_eq_true]
    exact ⟨hall c (List.mem_cons_self _ _), ih (fun x hx => hall x (List.mem_cons_of_mem _ hx))⟩

theorem envOkL_mem {α : Type} {d : Nat} {ops : ObjOps α d} {l : List (RNode α d)}
    (hall : envOkL ops l = true) : ∀ c ∈ l, c.envOk ops = true := by
  induction l with
  | nil => intro c hc; cases hc
  | cons c cs ih =>
    simp only [envOkL, Bool.and_eq_true] at hall
    intro x hx
    rcases List.mem_cons.mp hx with rfl | hx
    · exact hall.1
    · exact ih hall.2 x hx

/-- In an envelope-correct subtree, the subtree's envelope contains the
envelope of every stored object. -/
theorem envOk_contains_elem {α : Type} {d : Nat} (ops : ObjOps α d) :
    ∀ n : RNode α d, n.envOk ops = true →
      ∀ x ∈ n.elems, (n.envOf ops).contains_envelope (ops.envelope x) = true := by
  intro n
  induction n using RNode.strongInd with
  | hl o =>
    intro _ x hx
    rcases List.mem_cons.mp hx with rfl | hx
    · exact AABB.contains_envelope_refl _
    · cases hx
  | hp e cs ih =>
    intro hok x hx
    simp only [RNode.envOk, Bool.and_eq_true, decide_eq_true_eq] at hok
    obtain ⟨he, hcs⟩ := hok
    simp only [RNode.elems] at hx
    have : ∃ c ∈ cs, x ∈ c.elems := by
      clear he hcs ih
      induction cs with
      | nil => cases hx
      | cons c cst ihc =>
        simp only [elemsL, List.mem_append] at hx
        rcases hx with hx | hx
        · exact ⟨c, List.mem_cons_self _ _, hx⟩
        · obtain ⟨c2, hc2, hx2⟩ := ihc hx
          exact ⟨c2, List.mem_cons_of_mem _ hc2, hx2⟩
    obtain ⟨c, hc, hxc⟩ := this
    have h1 := ih c hc (envOkL_mem hcs c hc) x hxc
    have h2 : (RNode.envOf ops (.parent e cs)).contains_envelope (c.envOf ops) = true := by
      simp only [RNode.envOf, he]
      exact envMergeList_contains (List.mem_map_of_mem _ hc)
    exact AABB.contains_envelope_trans h2 h1

/-- Membership in the elements of a parent comes from membership in some
child. -/
theorem elemsL_mem_iff {α : Type} {d : Nat} {cs : List (RNode α d)} {x : α} :
    x ∈ elemsL cs ↔ ∃ c ∈ cs, x ∈ c.elems := by
  induction cs with
  | nil => simp [elemsL]
  | cons c cst ih =>
    simp only [elemsL, List.mem_append, ih, List.mem_cons]
    constructor
    · rintro (hx | ⟨c2, hc2, hx2⟩)
      · exact ⟨c, Or.inl rfl, hx⟩
      · exact ⟨c2, Or.inr hc2, hx2⟩
    · rintro ⟨c2, (rfl | hc2), hx2⟩
      · exact Or.inl hx2
      · exact Or.inr ⟨c2, hc2, hx2⟩

mutual
/-- The selection traversal yields exactly the stored objects satisfying the
yield predicate, provided the descend predicate is monotone under envelope
containment and is implied (on the object's envelope) by the yield
predicate. -/
theorem selNode_eq_filter {α : Type} {d : Nat} (ops : ObjOps α d)
    (desc : AABB d → Bool) (yld : α → Bool)
    (hyd : ∀ x, yld x = true → desc (ops.envelope x) = true)
    (hmono : ∀ a b : AABB d, b.contains_envelope a = true → desc a = true → desc b = true) :
    ∀ n : RNode α d, n.envOk ops = true → selNode ops desc yld n = n.elems.filter yld
  | .leaf o => by
    intro _
    by_cases h : yld o = true <;> simp [selNode, RNode.elems, List.filter_cons, h]
  | .parent e cs => by
    intro hok
    simp only [RNode.envOk, Bool.and_eq_true] at hok
    simp only [selNode, RNode.elems]
    exact selL_eq_filter ops desc yld hyd hmono cs hok.2
theorem selL_eq_filter {α : Type} {d : Nat} (ops : ObjOps α d)
    (desc : AABB d → Bool) (yld : α → Bool)
    (hyd : ∀ x, yld x = true → desc (ops.envelope x) = true)
    (hmono : ∀ a b : AABB d, b.contains_envelope a = true → desc a = true → desc b = true) :
    ∀ cs : List (RNode α d), envOkL ops cs = true → selL ops desc yld cs = (elemsL cs).filter yld
  | [] => by intro _; rfl
  | c :: cs => by
    intro hok
    simp only [envOkL, Bool.and_eq_true] at hok
    simp only [selL, elemsL, List.filter_append]
    rw [selL_eq_filter ops desc yld hyd hmono cs hok.2]
    congr 1
    by_cases hdc : desc (c.envOf ops) = true
    · rw [if_pos hdc]
      exact selNode_eq_filter ops desc yld hyd hmono c hok.1
    · rw [if_neg hdc]
      symm
      rw [List.filter_eq_nil_iff]
      intro x hx
      intro hyx
      apply hdc
      exact hmono _ _ (envOk_contains_elem ops c hok.1 x hx) (hyd x hyx)
end

theorem argminAux_lt {ks : List (Int × Int × Int)} :
    ∀ {cur best : Nat} {bk : Int × Int × Int}, best < cur →
      argminAux ks cur bk best < cur + ks.length := by
  induction ks with
  | nil =>
    intro cur best bk h
    simp only [argminAux, List.length_nil]
    omega
  | cons k ks ih =>
    intro cur best bk h
    simp only [argminAux, List.length_cons]
    by_cases hc : lexLt k bk = true
    · rw [if_pos hc]
      have := @ih (cur + 1) cur k (Nat.lt_succ_self cur)
      omega
    · rw [if_neg hc]
      have := @ih (cur + 1) best bk (Nat.lt_succ_of_lt h)
      omega

theorem argminIdx_lt {ks : List (Int × Int × Int)} (h : ks ≠ []) :
    argminIdx ks < ks.length := by
  cases ks with
  | nil => exact absurd rfl h
  | cons k ks =>
    simp only [argminIdx, List.length_cons]
    have := @argminAux_lt ks 1 0 k Nat.zero_lt_one
    omega

theorem pickMinBy_mem {β : Type} {key : β → Int × Int × Int} :
    ∀ {l : List β} {b : β}, pickMinBy key l = some b → b ∈ l := by
  intro l
  induction l with
  | nil => intro b h; simp [pickMinBy] at h
  | cons c cs ih =>
    intro b h
    simp only [pickMinBy] at h
    cases hcs : pickMinBy key cs with
    | none => rw [hcs] at h; cases h; exact List.mem_cons_self _ _
    | some m =>
      rw [hcs] at h
      dsimp only at h
      by_cases hlt : lexLt (key m) (key c) = true
      · rw [if_pos hlt] at h
        cases h
        exact List.mem_cons_of_mem _ (ih hcs)
      · rw [if_neg hlt] at h
        cases h
        exact List.mem_cons_self _ _

theorem pickMinBy_isSome {β : Type} {key : β → Int × Int × Int} {l : List β}
    (h : l ≠ []) : (pickMinBy key l).isSome = true := by
  cases l with
  | nil => exact absurd rfl h
  | cons c cs =>
    simp only [pickMinBy]
    cases pickMinBy key cs with
    | none => rfl
    | some m => by_cases hlt : lexLt (key m) (key c) = true <;> simp [hlt]

theorem chooseSubtreeIdx_lt {d : Nat} (useOverlap : Bool) {envs : List (AABB d)} (e : AABB d)
    (h : envs ≠ []) : chooseSubtreeIdx useOverlap envs e < envs.length := by
  unfold chooseSubtreeIdx
  have hne : (List.range envs.length).map (fun i =>
      let ai := envs.getD i AABB.empty
      if useOverlap then
        (overlapEnlargementAt envs e i, areaEnlargement ai e, ai.area)
      else
        (areaEnlargement ai e, ai.area, 0)) ≠ [] := by
    simp only [ne_eq, List.map_eq_nil_iff, List.range_eq_nil]
    intro hlen
    exact h (List.eq_nil_of_length_eq_zero hlen)
  have := argminIdx_lt hne
  simpa using this

theorem splitCandidatesOf_eq {α : Type} {d : Nat} {p : Params} {sorted : List (RNode α d)}
    {g : List (RNode α d) × List (RNode α d)} (h : g ∈ splitCandidatesOf p sorted) :
    g.1 ++ g.2 = sorted := by
  simp only [splitCandidatesOf, List.mem_map] at h
  obtain ⟨k, _, rfl⟩ := h
  exact List.take_append_drop k sorted

theorem sortedByAxis_perm {α : Type} {d : Nat} (ops : ObjOps α d) (up : Bool) (axis : Nat)
    (cs : List (RNode α d)) : (sortedByAxis ops up axis cs).Perm cs :=
  List.mergeSort_perm cs _

theorem splitCandidatesAxis_perm {α : Type} {d : Nat} {ops : ObjOps α d} {p : Params}
    {axis : Nat} {cs : List (RNode α d)} {g : List (RNode α d) × List (RNode α d)}
    (h : g ∈ splitCandidatesAxis ops p axis cs) : (g.1 ++ g.2).Perm cs := by
  simp only [splitCandidatesAxis, List.mem_append] at h
  rcases h with h | h
  · rw [splitCandidatesOf_eq h]
    exact sortedByAxis_perm ops false axis cs
  · rw [splitCandidatesOf_eq h]
    exact sortedByAxis_perm ops true axis cs

theorem splitGroups_perm {α : Type} {d : Nat} (ops : ObjOps α d) (p : Params)
    (cs : List (RNode α d)) :
    ((splitGroups ops p cs).1 ++ (splitGroups ops p cs).2).Perm cs := by
  unfold splitGroups
  cases hp : pickMinBy (fun g =>
      ((envUnion ops g.1).intersection_area (envUnion ops g.2),
        (envUnion ops g.1).area + (envUnion ops g.2).area, 0))
      (splitCandidatesAxis ops p (chooseSplitAxis ops p cs) cs) with
  | none => simp
  | some g =>
    simp only [Option.getD_some]
    exact splitCandidatesAxis_perm (pickMinBy_mem hp)

theorem reinsertParts_perm {α : Type} {d : Nat} (ops : ObjOps α d) (p : Params) (env : AABB d)
    (cs : List (RNode α d)) :
    ((reinsertParts ops p env cs).1 ++ (reinsertParts ops p env cs).2).Perm cs := by
  unfold reinsertParts
  simp only
  refine List.Perm.trans (List.perm_append_comm) ?h
  rw [List.take_append_drop]
  exact List.mergeSort_perm cs _

theorem overflowTreat_elems {α : Type} {d : Nat} (ops : ObjOps α d) (p : Params)
    (excluded : List Nat) (cs : List (RNode α d)) (hn : Nat) :
    (insResElems (overflowTreat ops p excluded cs hn)).Perm (elemsL cs) := by
  unfold overflowTreat
  by_cases hmem : hn ∈ excluded
  · rw [if_pos hmem]
    simp only [insResElems, RNode.elems]
    have h1 : (elemsL (splitGroups ops p cs).1 ++ elemsL (splitGroups ops p cs).2) =
        elemsL ((splitGroups ops p cs).1 ++ (splitGroups ops p cs).2) :=
      (elemsL_append _ _).symm
    rw [h1]
    exact elemsL_perm (splitGroups_perm ops p cs)
  · rw [if_neg hmem]
    simp only [insResElems, RNode.elems]
    have h1 : (elemsL (reinsertParts ops p (envUnion ops cs) cs).1 ++
        elemsL (reinsertParts ops p (envUnion ops cs) cs).2) =
        elemsL ((reinsertParts ops p (envUnion ops cs) cs).1 ++
          (reinsertParts ops p (envUnion ops cs) cs).2) := (elemsL_append _ _).symm
    rw [h1]
    exact elemsL_perm (reinsertParts_perm ops p _ cs)

theorem perm_rot {α : Type} (a b c : List α) : (a ++ b ++ c).Perm (a ++ c ++ b) := by
  simp only [List.append_assoc]
  exact List.Perm.append_left _ (List.perm_append_comm)

mutual
/-- Inserting an entry below a node conserves the stored objects: the result
carries exactly the node's objects plus the entry's. -/
theorem insertRec_elems {α : Type} {d : Nat} (ops : ObjOps α d) (p : Params)
    (excluded : List Nat) (e : RNode α d) (he : Nat) :
    ∀ (n : RNode α d) (hn : Nat),
      (insResElems (insertRec ops p excluded e he n hn)).Perm (n.elems ++ e.elems)
  | .leaf o, hn => by
    simp [insertRec, insResElems, RNode.elems, elemsL]
  | .parent env cs, hn => by
    simp only [insertRec]
    by_cases hlt : he + 1 < hn
    · rw [if_pos hlt]
      have hrec := insertRecL_elems ops p excluded e he (hn - 1)
          (chooseSubtreeIdx (decide (hn = he + 2)) (childEnvs ops cs) (e.envOf ops)) cs
      rcases hres : insertRecL ops p excluded e he (hn - 1)
          (chooseSubtreeIdx (decide (hn = he + 2)) (childEnvs ops cs) (e.envOf ops)) cs with
        newCs | ⟨newCs, c2⟩ | ⟨newCs, orphans, oh⟩ <;> rw [hres] at hrec <;>
        simp only [recLElems] at hrec
      · simp only [insResElems, RNode.elems]
        exact hrec
      · by_cases hlen : (newCs ++ [c2]).length ≤ p.MAX_SIZE
        · simp only [hlen, if_true, insResElems, RNode.elems]
          refine List.Perm.trans ?h1 hrec
          rw [elemsL_append]
          simp [elemsL]
        · simp only [hlen, if_false]
          refine List.Perm.trans (overflowTreat_elems ops p excluded (newCs ++ [c2]) hn) ?h2
          refine List.Perm.trans ?h3 hrec
          rw [elemsL_append]
          simp [elemsL]
      · simp only [insResElems, RNode.elems]
        exact hrec
    · rw [if_neg hlt]
      by_cases hlen : (cs ++ [e]).length ≤ p.MAX_SIZE
      · simp only [hlen, if_true, insResElems, RNode.elems]
        rw [elemsL_append]
        simp [elemsL]
      · simp only [hlen, if_false]
        refine List.Perm.trans (overflowTreat_elems ops p excluded (cs ++ [e]) hn) ?h4
        rw [elemsL_append]
        simp [elemsL, RNode.elems]
/-- Companion bookkeeping on the child list. -/
theorem insertRecL_elems {α : Type} {d : Nat} (ops : ObjOps α d) (p : Params)
    (excluded : List Nat) (e : RNode α d) (he hc : Nat) :
    ∀ (k : Nat) (cs : List (RNode α d)),
      (recLElems (insertRecL ops p excluded e he hc k cs)).Perm (elemsL cs ++ e.elems)
  | _, [] => by simp [insertRecL, recLElems, elemsL]
  | 0, c :: rest => by
    have hrec := insertRec_elems ops p excluded e he c hc
    simp only [insertRecL]
    rcases hres : insertRec ops p excluded e he c hc with c2 | ⟨c1, c2⟩ | ⟨c2, orph, oh⟩ <;>
      rw [hres] at hrec <;>
      simp only [insResElems] at hrec <;>
      simp only [recLElems, elemsL]
    · exact (hrec.append_right _).trans (perm_rot _ _ _)
    · have h0 : (c1.elems ++ elemsL rest ++ c2.elems).Perm
          (c1.elems ++ c2.elems ++ elemsL rest) := perm_rot _ _ _
      exact h0.trans ((hrec.append_right _).trans (perm_rot _ _ _))
    · have h0 : (c2.elems ++ elemsL rest ++ elemsL orph).Perm
          (c2.elems ++ elemsL orph ++ elemsL rest) := perm_rot _ _ _
      exact h0.trans ((hrec.append_right _).trans (perm_rot _ _ _))
  | k + 1, c :: rest => by
    have hrec := insertRecL_elems ops p excluded e he hc k rest
    simp only [insertRecL]
    rcases hres : insertRecL ops p excluded e he hc k rest with l | ⟨l, x⟩ | ⟨l, o, oh⟩ <;>
      rw [hres] at hrec <;>
      simp only [recLElems, elemsL] at hrec ⊢ <;>
      simp only [List.append_assoc] at hrec ⊢ <;>
      exact List.Perm.append_left _ hrec
end

theorem insertOnce_elems {α : Type} {d : Nat} (ops : ObjOps α d) (p : Params)
    (excluded : List Nat) (e : RNode α d) (he : Nat) (root : RNode α d) :
    (onceElems (insertOnce ops p excluded e he root)).Perm (root.elems ++ e.elems) := by
  cases root with
  | leaf o => simp [insertOnce, onceElems, RNode.elems, elemsL]
  | parent env cs =>
    simp only [insertOnce]
    by_cases hlt : he + 1 < heightLB cs + 1
    · rw [if_pos hlt]
      have hrec := insertRecL_elems ops p excluded e he (heightLB cs + 1 - 1)
          (chooseSubtreeIdx (decide (heightLB cs + 1 = he + 2)) (childEnvs ops cs)
            (e.envOf ops)) cs
      rcases hres : insertRecL ops p excluded e he (heightLB cs + 1 - 1)
          (chooseSubtreeIdx (decide (heightLB cs + 1 = he + 2)) (childEnvs ops cs)
            (e.envOf ops)) cs with
        newCs | ⟨newCs, c2⟩ | ⟨newCs, orphans, oh⟩ <;> rw [hres] at hrec <;>
        simp only [recLElems] at hrec
      · simp only [onceElems, RNode.elems, List.append_nil]
        exact hrec
      · by_cases hlen : (newCs ++ [c2]).length ≤ p.MAX_SIZE
        · simp only [hlen, if_true, onceElems, RNode.elems, List.append_nil]
          refine List.Perm.trans ?h1 hrec
          rw [elemsL_append]
          simp [elemsL]
        · simp only [hlen, if_false, onceElems, RNode.elems, List.append_nil]
          have hsp : (elemsL [RNode.parent (envUnion ops (splitGroups ops p (newCs ++ [c2])).1)
                (splitGroups ops p (newCs ++ [c2])).1,
              RNode.parent (envUnion ops (splitGroups ops p (newCs ++ [c2])).2)
                (splitGroups ops p (newCs ++ [c2])).2]).Perm (elemsL (newCs ++ [c2])) := by
            simp only [elemsL, RNode.elems, List.append_nil]
            rw [← elemsL_append]
            exact elemsL_perm (splitGroups_perm ops p _)
          refine List.Perm.trans hsp ?h2
          refine List.Perm.trans ?h3 hrec
          rw [elemsL_append]
          simp [elemsL]
      · simp only [onceElems, RNode.elems]
        exact hrec
    · rw [if_neg hlt]
      by_cases hlen : (cs ++ [e]).length ≤ p.MAX_SIZE
      · simp only [hlen, if_true, onceElems, RNode.elems, List.append_nil]
        rw [elemsL_append]
        simp [elemsL]
      · simp only [hlen, if_false, onceElems, RNode.elems, List.append_nil]
        have hsp : (elemsL [RNode.parent (envUnion ops (splitGroups ops p (cs ++ [e])).1)
              (splitGroups ops p (cs ++ [e])).1,
            RNode.parent (envUnion ops (splitGroups ops p (cs ++ [e])).2)
              (splitGroups ops p (cs ++ [e])).2]).Perm (elemsL (cs ++ [e])) := by
          simp only [elemsL, RNode.elems, List.append_nil]
          rw [← elemsL_append]
          exact elemsL_perm (splitGroups_perm ops p _)
        refine List.Perm.trans hsp ?h4
        rw [elemsL_append]
        simp [elemsL, RNode.elems]

theorem map_fst_mk {β γ : Type} (b : γ) :
    ∀ l : List β, List.map (Prod.fst ∘ fun o => (o, b)) l = l := by
  intro l
  induction l with
  | nil => rfl
  | cons a l ihl => simp only [List.map_cons, ihl]; rfl

theorem insertLoop_elems {α : Type} {d : Nat} (ops : ObjOps α d) (p : Params) :
    ∀ (fuel : Nat) (excluded : List Nat) (pend : List (RNode α d × Nat)) (root r : RNode α d),
      insertLoop ops p fuel excluded pend root = some r →
      r.elems.Perm (root.elems ++ elemsL (pend.map Prod.fst)) := by
  intro fuel
  induction fuel with
  | zero =>
    intro excluded pend root r h
    cases pend with
    | nil => simp only [insertLoop] at h; cases h; simp [elemsL]
    | cons e rest => simp [insertLoop] at h
  | succ fuel ih =>
    intro excluded pend root r h
    cases pend with
    | nil => simp only [insertLoop] at h; cases h; simp [elemsL]
    | cons p0 rest =>
      rcases p0 with ⟨e, he⟩
      simp only [insertLoop] at h
      have honce := insertOnce_elems ops p excluded e he root
      rcases hres : insertOnce ops p excluded e he root with ⟨root2, orph⟩
      rw [hres] at h honce
      cases orph with
      | none =>
        have hr := ih excluded rest root2 r h
        simp only [onceElems, List.append_nil] at honce
        simp only [List.map_cons, elemsL]
        refine List.Perm.trans hr ?h1
        refine List.Perm.trans (honce.append_right _) ?h2
        simp [List.append_assoc]
      | some o =>
        rcases o with ⟨orphans, oh⟩
        have hr := ih ((oh + 1) :: excluded) (orphans.map (fun o => (o, oh)) ++ rest) root2 r h
        simp only [onceElems] at honce
        simp only [List.map_cons, elemsL]
        refine List.Perm.trans hr ?h3
        have hmap : (orphans.map (fun o => (o, oh)) ++ rest).map Prod.fst =
            orphans ++ rest.map Prod.fst := by
          simp only [List.map_append, List.map_map]
          congr 1
          exact map_fst_mk oh orphans
        rw [hmap, elemsL_append]
        have h1 : (root2.elems ++ (elemsL orphans ++ elemsL (rest.map Prod.fst))).Perm
            ((root2.elems ++ elemsL orphans) ++ elemsL (rest.map Prod.fst)) := by
          simp [List.append_assoc]
        refine List.Perm.trans h1 ?h4
        refine List.Perm.trans (honce.append_right _) ?h5
        simp [List.append_assoc]

theorem RTree.insert_elems {α : Type} {d : Nat} (ops : ObjOps α d) (p : Params) (fuel : Nat)
    (t : RTree α d) (x : α) {t2 : RTree α d} (h : t.insert ops p fuel x = some t2) :
    t2.root.elems.Perm (t.root.elems ++ [x]) ∧ t2.size = t.size + 1 := by
  unfold RTree.insert at h
  rcases hloop : insertLoop ops p fuel [] [(.leaf x, 0)] t.root with _ | r
  · rw [hloop] at h; cases h
  · rw [hloop] at h
    cases h
    have := insertLoop_elems ops p fuel [] [(.leaf x, 0)] t.root r hloop
    simp only [List.map_cons, List.map_nil, elemsL, RNode.elems, List.append_nil] at this
    exact ⟨this, rfl⟩

/-! ## Insertion: invariant preservation -/
theorem wfAtL_append {α : Type} {d : Nat} (ops : ObjOps α d) (m M : Nat)
    (l1 l2 : List (RNode α d)) (h : Nat) :
    wfAtL ops m M (l1 ++ l2) h = (wfAtL ops m M l1 h && wfAtL ops m M l2 h) := by
  induction l1 with
  | nil => simp [wfAtL]
  | cons c cs ih => simp [wfAtL, ih, Bool.and_assoc]

mutual
/-- A node satisfying the invariants at height `h` has computed height `h`
(provided parents are forced non-empty by `1 <= m`). -/
theorem wfAt_heightB {α : Type} {d : Nat} (ops : ObjOps α d) {m M : Nat} (hm : 1 ≤ m) :
    ∀ (n : RNode α d) (h : Nat), RNode.wfAt ops m M n h = true → n.heightB = h
  | .leaf o, 0 => fun _ => rfl
  | .leaf o, h + 1 => by intro hw; simp [RNode.wfAt] at hw
  | .parent e cs, 0 => by intro hw; simp [RNode.wfAt] at hw
  | .parent e cs, h + 1 => by
    intro hw
    simp only [RNode.wfAt, Bool.and_eq_true, decide_eq_true_eq] at hw
    obtain ⟨⟨⟨_, hlen⟩, _⟩, hcs⟩ := hw
    have hne : cs ≠ [] := by
      intro hnil
      rw [hnil] at hlen
      simp at hlen
      omega
    simp only [RNode.heightB]
    rw [wfAtL_heightLB ops hm cs h hcs hne]
theorem wfAtL_heightLB {α : Type} {d : Nat} (ops : ObjOps α d) {m M : Nat} (hm : 1 ≤ m) :
    ∀ (cs : List (RNode α d)) (h : Nat), wfAtL ops m M cs h = true → cs ≠ [] →
      heightLB cs = h
  | [], h => by intro _ hne; exact absurd rfl hne
  | c :: cs, h => by
    intro hw _
    simp only [wfAtL, Bool.and_eq_true] at hw
    simp only [heightLB]
    rw [wfAt_heightB ops hm c h hw.1]
    cases cs with
    | nil => simp [heightLB]
    | cons c2 cs2 =>
      rw [wfAtL_heightLB ops hm (c2 :: cs2) h hw.2 (by simp)]
      simp
end

theorem splitPositions_bounds {p : Params} {len k : Nat} (hlen : 2 * p.MIN_SIZE ≤ len)
    (h : k ∈ splitPositions p len) :
    p.MIN_SIZE ≤ k ∧ k ≤ len - p.MIN_SIZE := by
  unfold splitPositions at h
  rw [List.mem_range'] at h
  obtain ⟨i, hi, rfl⟩ := h
  omega

theorem splitPositions_ne_nil {p : Params} {len : Nat} (hlen : 2 * p.MIN_SIZE ≤ len) :
    splitPositions p len ≠ [] := by
  unfold splitPositions
  intro h
  have := congrArg List.length h
  rw [List.length_range'] at this
  simp only [List.length_nil] at this
  omega

theorem splitCandidatesOf_bounds {α : Type} {d : Nat} {p : Params}
    {sorted : List (RNode α d)} {g : List (RNode α d) × List (RNode α d)}
    (hslen : 2 * p.MIN_SIZE ≤ sorted.length) (hmem : g ∈ splitCandidatesOf p sorted) :
    p.MIN_SIZE ≤ g.1.length ∧ g.1.length ≤ sorted.length - p.MIN_SIZE ∧
    p.MIN_SIZE ≤ g.2.length ∧ g.2.length ≤ sorted.length - p.MIN_SIZE := by
  simp only [splitCandidatesOf, List.mem_map] at hmem
  obtain ⟨k, hk, rfl⟩ := hmem
  have hb := splitPositions_bounds hslen hk
  simp only [List.length_take, List.length_drop]
  omega

theorem splitCandidatesAxis_ne_nil {α : Type} {d : Nat} (ops : ObjOps α d) {p : Params}
    (axis : Nat) {cs : List (RNode α d)} (hlen : 2 * p.MIN_SIZE ≤ cs.length) :
    splitCandidatesAxis ops p axis cs ≠ [] := by
  unfold splitCandidatesAxis
  intro h
  rcases List.append_eq_nil.mp h with ⟨h1, _⟩
  unfold splitCandidatesOf at h1
  rcases List.map_eq_nil_iff.mp h1 with h2
  have h3 : 2 * p.MIN_SIZE ≤ (sortedByAxis ops false axis cs).length := by
    unfold sortedByAxis
    rw [List.length_mergeSort]
    exact hlen
  exact absurd h2 (splitPositions_ne_nil h3)

theorem splitGroups_props {α : Type} {d : Nat} (ops : ObjOps α d) {p : Params}
    {cs : List (RNode α d)} (hp : p.valid) (hlen : cs.length = p.MAX_SIZE + 1) :
    (p.MIN_SIZE ≤ (splitGroups ops p cs).1.length ∧
      (splitGroups ops p cs).1.length ≤ p.MAX_SIZE) ∧
    (p.MIN_SIZE ≤ (splitGroups ops p cs).2.length ∧
      (splitGroups ops p cs).2.length ≤ p.MAX_SIZE) := by
  obtain ⟨hm2, hmM, _, _⟩ := hp
  have hne := splitCandidatesAxis_ne_nil ops (chooseSplitAxis ops p cs) (by omega :
    2 * p.MIN_SIZE ≤ cs.length)
  unfold splitGroups
  cases hpick : pickMinBy (fun g =>
      ((envUnion ops g.1).intersection_area (envUnion ops g.2),
        (envUnion ops g.1).area + (envUnion ops g.2).area, 0))
      (splitCandidatesAxis ops p (chooseSplitAxis ops p cs) cs) with
  | none =>
    exfalso
    have := @pickMinBy_isSome _ (fun g =>
      ((envUnion ops g.1).intersection_area (envUnion ops g.2),
        (envUnion ops g.1).area + (envUnion ops g.2).area, 0)) _ hne
    rw [hpick] at this
    cases this
  | some g =>
    simp only [Option.getD_some]
    have hmem := pickMinBy_mem hpick
    simp only [splitCandidatesAxis, List.mem_append] at hmem
    rcases hmem with hmem | hmem <;>
    · have hb := splitCandidatesOf_bounds (by
        simp only [sortedByAxis, List.length_mergeSort, hlen]
        omega) hmem
      simp only [sortedByAxis, List.length_mergeSort, hlen] at hb
      omega

theorem splitGroups_mem {α : Type} {d : Nat} (ops : ObjOps α d) (p : Params)
    (cs : List (RNode α d)) {c : RNode α d}
    (h : c ∈ (splitGroups ops p cs).1 ∨ c ∈ (splitGroups ops p cs).2) : c ∈ cs := by
  have hperm := splitGroups_perm ops p cs
  rw [← hperm.mem_iff]
  rw [List.mem_append]
  exact h

theorem reinsertParts_len {α : Type} {d : Nat} (ops : ObjOps α d) {p : Params} (env : AABB d)
    {cs : List (RNode α d)} (hp : p.valid) (hlen : cs.length = p.MAX_SIZE + 1) :
    p.MIN_SIZE ≤ (reinsertParts ops p env cs).1.length ∧
    (reinsertParts ops p env cs).1.length ≤ p.MAX_SIZE := by
  obtain ⟨hm2, hmM, hrc1, hrc2⟩ := hp
  unfold reinsertParts
  simp only [List.length_drop, List.length_mergeSort, hlen]
  omega

theorem reinsertParts_mem {α : Type} {d : Nat} (ops : ObjOps α d) (p : Params) (env : AABB d)
    (cs : List (RNode α d)) {c : RNode α d}
    (h : c ∈ (reinsertParts ops p env cs).1 ∨ c ∈ (reinsertParts ops p env cs).2) : c ∈ cs := by
  have hperm := reinsertParts_perm ops p env cs
  rw [← hperm.mem_iff]
  rw [List.mem_append]
  exact h

theorem wfAtL_of_perm_subset {α : Type} {d : Nat} {ops : ObjOps α d} {m M : Nat}
    {cs l : List (RNode α d)} {h : Nat} (hsub : ∀ c ∈ l, c ∈ cs)
    (hall : wfAtL ops m M cs h = true) : wfAtL ops m M l h = true :=
  wfAtL_of_mem (fun c hc => wfAtL_mem hall c (hsub c hc))

theorem overflowTreat_wf {α : Type} {d : Nat} (ops : ObjOps α d) {p : Params}
    (excluded : List Nat) {cs : List (RNode α d)} {hn : Nat} (hp : p.valid)
    (hlen : cs.length = p.MAX_SIZE + 1) (hcs : wfAtL ops p.MIN_SIZE p.MAX_SIZE cs (hn - 1) = true)
    (hn1 : 1 ≤ hn) :
    insResWf ops p.MIN_SIZE p.MAX_SIZE (overflowTreat ops p excluded cs hn) hn := by
  obtain ⟨h2, rfl⟩ : ∃ h2, hn = h2 + 1 := ⟨hn - 1, by omega⟩
  simp only [Nat.add_sub_cancel] at hcs
  unfold overflowTreat
  by_cases hmem : h2 + 1 ∈ excluded
  · rw [if_pos hmem]
    obtain ⟨⟨hb1, hb2⟩, hb3, hb4⟩ := splitGroups_props ops hp hlen
    refine ⟨?hs1, ?hs2⟩
    · simp only [RNode.wfAt, Bool.and_eq_true, decide_eq_true_eq]
      refine ⟨⟨⟨trivial, by omega⟩, by omega⟩, ?hr1⟩
      exact wfAtL_of_perm_subset (fun c hc => splitGroups_mem ops p cs (Or.inl hc)) hcs
    · simp only [RNode.wfAt, Bool.and_eq_true, decide_eq_true_eq]
      refine ⟨⟨⟨trivial, by omega⟩, by omega⟩, ?hr2⟩
      exact wfAtL_of_perm_subset (fun c hc => splitGroups_mem ops p cs (Or.inr hc)) hcs
  · rw [if_neg hmem]
    obtain ⟨hb1, hb2⟩ := reinsertParts_len ops (envUnion ops cs) hp hlen
    refine ⟨?hnode, ?horph, by omega⟩
    · simp only [RNode.wfAt, Bool.and_eq_true, decide_eq_true_eq]
      refine ⟨⟨⟨trivial, by omega⟩, by omega⟩, ?hrest2⟩
      exact wfAtL_of_perm_subset
        (fun c hc => reinsertParts_mem ops p (envUnion ops cs) cs (Or.inl hc)) hcs
    · intro o ho
      simp only [Nat.add_sub_cancel]
      exact wfAtL_mem hcs o (reinsertParts_mem ops p (envUnion ops cs) cs (Or.inr ho))

mutual
/-- The R* descent preserves the tree invariants: inserting a well-formed
entry of height `he` into a well-formed non-root node of height `hn > he`
yields well-formed results (including height bookkeeping of forced
reinsertions). -/
theorem insertRec_wf {α : Type} {d : Nat} (ops : ObjOps α d) (p : Params) (excluded : List Nat)
    (e : RNode α d) (he : Nat) (hp : p.valid) :
    ∀ (n : RNode α d) (hn : Nat),
      RNode.wfAt ops p.MIN_SIZE p.MAX_SIZE n hn = true →
      RNode.wfAt ops p.MIN_SIZE p.MAX_SIZE e he = true →
      he + 1 ≤ hn →
      insResWf ops p.MIN_SIZE p.MAX_SIZE (insertRec ops p excluded e he n hn) hn
  | .leaf o, hn => by
    intro hw _ hle
    exfalso
    obtain ⟨h2, rfl⟩ : ∃ h2, hn = h2 + 1 := ⟨hn - 1, by omega⟩
    simp [RNode.wfAt] at hw
  | .parent env cs, hn => by
    intro hw hwe hle
    have hpm : 2 ≤ p.MIN_SIZE := hp.1
    obtain ⟨h2, rfl⟩ : ∃ h2, hn = h2 + 1 := ⟨hn - 1, by omega⟩
    simp only [RNode.wfAt, Bool.and_eq_true, decide_eq_true_eq] at hw
    obtain ⟨⟨⟨henv, hlo⟩, hhi⟩, hcs⟩ := hw
    simp only [insertRec]
    by_cases hlt : he + 1 < h2 + 1
    · rw [if_pos hlt]
      have hkbound : chooseSubtreeIdx (decide (h2 + 1 = he + 2)) (childEnvs ops cs)
          (e.envOf ops) < cs.length := by
        have hne : childEnvs ops cs ≠ [] := by
          simp only [childEnvs, ne_eq, List.map_eq_nil_iff]
          intro hnil
          rw [hnil] at hlo
          simp at hlo
          omega
        have := chooseSubtreeIdx_lt (decide (h2 + 1 = he + 2)) (e.envOf ops) hne
        simpa [childEnvs] using this
      have hrecl := insertRecL_wf ops p excluded e he (h2 + 1 - 1) hp
          (chooseSubtreeIdx (decide (h2 + 1 = he + 2)) (childEnvs ops cs) (e.envOf ops)) cs
          hkbound (by simpa using hcs) hwe (by omega)
      rcases hres : insertRecL ops p excluded e he (h2 + 1 - 1)
          (chooseSubtreeIdx (decide (h2 + 1 = he + 2)) (childEnvs ops cs) (e.envOf ops)) cs with
        newCs | ⟨newCs, c2⟩ | ⟨newCs, orphans, oh⟩ <;> rw [hres] at hrecl <;>
        simp only [recLWf] at hrecl
      · obtain ⟨hnew0, hlen0⟩ := hrecl
        simp only [insResWf, RNode.wfAt, Bool.and_eq_true, decide_eq_true_eq]
        refine ⟨⟨⟨trivial, by omega⟩, by omega⟩, by simpa using hnew0⟩
      · obtain ⟨hnew, hc2, hlen2⟩ := hrecl
        by_cases hov : (newCs ++ [c2]).length ≤ p.MAX_SIZE
        · simp only [hov, if_true, insResWf, RNode.wfAt, Bool.and_eq_true, decide_eq_true_eq]
          refine ⟨⟨⟨trivial, ?hm1⟩, ?hm2⟩, ?hm3⟩
          · simp only [List.length_append, List.length_cons, List.length_nil]
            omega
          · simpa using hov
          · rw [wfAtL_append]
            simp only [Bool.and_eq_true]
            refine ⟨by simpa using hnew, ?hm4⟩
            simp only [wfAtL, Bool.and_eq_true]
            exact ⟨by simpa using hc2, by trivial⟩
        · simp only [hov, if_false]
          apply overflowTreat_wf ops excluded hp
          · simp only [List.length_append, List.length_cons, List.length_nil] at hov ⊢
            omega
          · simp only [Nat.add_sub_cancel]
            rw [wfAtL_append]
            simp only [Bool.and_eq_true]
            refine ⟨by simpa using hnew, ?hm5⟩
            simp only [wfAtL, Bool.and_eq_true]
            exact ⟨by simpa using hc2, by trivial⟩
          · omega
      · obtain ⟨hnew, horph, hoh, hlen2⟩ := hrecl
        simp only [insResWf, RNode.wfAt, Bool.and_eq_true, decide_eq_true_eq]
        refine ⟨⟨⟨⟨trivial, by omega⟩, by omega⟩, by simpa using hnew⟩, horph, by omega⟩
    · rw [if_neg hlt]
      have hhe : he = h2 := by omega
      subst hhe
      by_cases hov : (cs ++ [e]).length ≤ p.MAX_SIZE
      · simp only [hov, if_true, insResWf, RNode.wfAt, Bool.and_eq_true, decide_eq_true_eq]
        refine ⟨⟨⟨trivial, ?hp1⟩, ?hp2⟩, ?hp3⟩
        · simp only [List.length_append, List.length_cons, List.length_nil]
          omega
        · simpa using hov
        · rw [wfAtL_append]
          simp only [Bool.and_eq_true]
          refine ⟨hcs, ?hp4⟩
          simp only [wfAtL, Bool.and_eq_true]
          exact ⟨hwe, by trivial⟩
      · simp only [hov, if_false]
        apply overflowTreat_wf ops excluded hp
        · simp only [List.length_append, List.length_cons, List.length_nil] at hov ⊢
          omega
        · simp only [Nat.add_sub_cancel]
          rw [wfAtL_append]
          simp only [Bool.and_eq_true]
          refine ⟨hcs, ?hp5⟩
          simp only [wfAtL, Bool.and_eq_true]
          exact ⟨hwe, by trivial⟩
        · omega
/-- Companion preservation on the child list. -/
theorem insertRecL_wf {α : Type} {d : Nat} (ops : ObjOps α d) (p : Params) (excluded : List Nat)
    (e : RNode α d) (he hc : Nat) (hp : p.valid) :
    ∀ (k : Nat) (cs : List (RNode α d)), k < cs.length →
      wfAtL ops p.MIN_SIZE p.MAX_SIZE cs hc = true →
      RNode.wfAt ops p.MIN_SIZE p.MAX_SIZE e he = true →
      he + 1 ≤ hc →
      recLWf ops p.MIN_SIZE p.MAX_SIZE (insertRecL ops p excluded e he hc k cs) hc cs.length
  | k, [] => by
    intro hk
    simp at hk
  | 0, c :: rest => by
    intro hk hcs hwe hle
    simp only [wfAtL, Bool.and_eq_true] at hcs
    have hrec := insertRec_wf ops p excluded e he hp c hc hcs.1 hwe hle
    simp only [insertRecL]
    rcases hres : insertRec ops p excluded e he c hc with c2 | ⟨c1, c2⟩ | ⟨c2, orph, oh⟩ <;>
      rw [hres] at hrec <;> simp only [insResWf] at hrec <;> simp only [recLWf]
    · exact ⟨by simp [wfAtL, hrec, hcs.2], by simp⟩
    · exact ⟨by simp [wfAtL, hrec.1, hcs.2], hrec.2, by simp⟩
    · exact ⟨by simp [wfAtL, hrec.1, hcs.2], hrec.2.1, hrec.2.2, by simp⟩
  | k + 1, c :: rest => by
    intro hk hcs hwe hle
    simp only [wfAtL, Bool.and_eq_true] at hcs
    have hrec := insertRecL_wf ops p excluded e he hc hp k rest (by simpa using hk)
        hcs.2 hwe hle
    simp only [insertRecL]
    rcases hres : insertRecL ops p excluded e he hc k rest with l | ⟨l, x⟩ | ⟨l, o, oh⟩ <;>
      rw [hres] at hrec <;> simp only [recLWf] at hrec <;> simp only [recLWf]
    · exact ⟨by simp [wfAtL, hcs.1, hrec.1], by simp [hrec.2]⟩
    · exact ⟨by simp [wfAtL, hcs.1, hrec.1], hrec.2.1, by simp [hrec.2.2]⟩
    · exact ⟨by simp [wfAtL, hcs.1, hrec.1], hrec.2.1, hrec.2.2.1, by simp [hrec.2.2.2]⟩
end

theorem rootWfB_isParent {α : Type} {d : Nat} {ops : ObjOps α d} {p : Params}
    {root : RNode α d} (h : rootWfB ops p root = true) :
    ∃ e cs, root = RNode.parent e cs := by
  cases root with
  | leaf o => simp [rootWfB] at h
  | parent e cs => exact ⟨e, cs, rfl⟩

theorem insertOnce_wf {α : Type} {d : Nat} (ops : ObjOps α d) (p : Params) (excluded : List Nat)
    (e : RNode α d) (he : Nat) (root : RNode α d) (hp : p.valid)
    (hroot : rootWfB ops p root = true)
    (hwe : RNode.wfAt ops p.MIN_SIZE p.MAX_SIZE e he = true)
    (hle : he + 1 ≤ root.heightB) :
    rootWfB ops p (insertOnce ops p excluded e he root).1 = true ∧
    root.heightB ≤ (insertOnce ops p excluded e he root).1.heightB ∧
    (∀ os oh, (insertOnce ops p excluded e he root).2 = some (os, oh) →
      (∀ o ∈ os, RNode.wfAt ops p.MIN_SIZE p.MAX_SIZE o oh = true) ∧
      oh + 1 ≤ (insertOnce ops p excluded e he root).1.heightB) := by
  have hpm : 2 ≤ p.MIN_SIZE := hp.1
  have hpM : 2 * p.MIN_SIZE ≤ p.MAX_SIZE := hp.2.1
  obtain ⟨env, cs, rfl⟩ := rootWfB_isParent hroot
  simp only [rootWfB, Bool.and_eq_true, decide_eq_true_eq] at hroot
  obtain ⟨⟨henv, hhi⟩, hcs⟩ := hroot
  simp only [RNode.heightB] at hle
  simp only [insertOnce]
  by_cases hlt : he + 1 < heightLB cs + 1
  · rw [if_pos hlt]
    have hcsne : cs ≠ [] := by
      intro hnil
      rw [hnil] at hlt
      simp [heightLB] at hlt
    have hkbound : chooseSubtreeIdx (decide (heightLB cs + 1 = he + 2)) (childEnvs ops cs)
        (e.envOf ops) < cs.length := by
      have hne : childEnvs ops cs ≠ [] := by
        simp only [childEnvs, ne_eq, List.map_eq_nil_iff]
        exact hcsne
      have := chooseSubtreeIdx_lt (decide (heightLB cs + 1 = he + 2)) (e.envOf ops) hne
      simpa [childEnvs] using this
    have hrecl := insertRecL_wf ops p excluded e he (heightLB cs + 1 - 1) hp
        (chooseSubtreeIdx (decide (heightLB cs + 1 = he + 2)) (childEnvs ops cs) (e.envOf ops))
        cs hkbound (by simpa using hcs) hwe (by omega)
    rcases hres : insertRecL ops p excluded e he (heightLB cs + 1 - 1)
        (chooseSubtreeIdx (decide (heightLB cs + 1 = he + 2)) (childEnvs ops cs) (e.envOf ops))
        cs with newCs | ⟨newCs, c2⟩ | ⟨newCs, orphans, oh⟩ <;> rw [hres] at hrecl <;>
      simp only [recLWf] at hrecl
    · obtain ⟨hnew, hlen0⟩ := hrecl
      have hnewne : newCs ≠ [] := by
        intro hnil
        rw [hnil] at hlen0
        exact hcsne (List.eq_nil_of_length_eq_zero hlen0.symm)
      have hht : heightLB newCs = heightLB cs :=
        wfAtL_heightLB ops (by omega) newCs (heightLB cs + 1 - 1) hnew hnewne
      simp only [Nat.add_sub_cancel] at hht
      refine ⟨?ha1, ?ha2, ?ha3⟩
      · simp only [rootWfB, Bool.and_eq_true, decide_eq_true_eq]
        exact ⟨⟨trivial, by omega⟩, by rw [hht]; simpa using hnew⟩
      · simp [RNode.heightB, hht]
      · intro os oh h
        cases h
    · obtain ⟨hnew, hc2, hlen2⟩ := hrecl
      simp only [Nat.add_sub_cancel] at hnew hc2
      have hall : wfAtL ops p.MIN_SIZE p.MAX_SIZE (newCs ++ [c2]) (heightLB cs) = true := by
        rw [wfAtL_append]
        simp only [Bool.and_eq_true]
        exact ⟨hnew, by simp [wfAtL, hc2]⟩
      have hne2 : (newCs ++ [c2]) ≠ [] := by simp
      have hht : heightLB (newCs ++ [c2]) = heightLB cs :=
        wfAtL_heightLB ops (by omega) _ _ hall hne2
      by_cases hov : (newCs ++ [c2]).length ≤ p.MAX_SIZE
      · simp only [if_pos hov]
        refine ⟨?hb1, ?hb2, ?hb3⟩
        · simp only [rootWfB, Bool.and_eq_true, decide_eq_true_eq]
          exact ⟨⟨trivial, hov⟩, by rw [hht]; exact hall⟩
        · simp [RNode.heightB, hht]
        · intro os oh h
          cases h
      · simp only [if_neg hov]
        have hlen3 : (newCs ++ [c2]).length = p.MAX_SIZE + 1 := by
          simp only [List.length_append, List.length_cons, List.length_nil] at hov ⊢
          omega
        obtain ⟨⟨hg1a, hg1b⟩, hg2a, hg2b⟩ := splitGroups_props ops hp hlen3
        have hw1 : RNode.wfAt ops p.MIN_SIZE p.MAX_SIZE
            (RNode.parent (envUnion ops (splitGroups ops p (newCs ++ [c2])).1)
              (splitGroups ops p (newCs ++ [c2])).1) (heightLB cs + 1) = true := by
          simp only [RNode.wfAt, Bool.and_eq_true, decide_eq_true_eq]
          refine ⟨⟨⟨trivial, by omega⟩, by omega⟩, ?hw1r⟩
          exact wfAtL_of_perm_subset (fun c hc => splitGroups_mem ops p _ (Or.inl hc)) hall
        have hw2 : RNode.wfAt ops p.MIN_SIZE p.MAX_SIZE
            (RNode.parent (envUnion ops (splitGroups ops p (newCs ++ [c2])).2)
              (splitGroups ops p (newCs ++ [c2])).2) (heightLB cs + 1) = true := by
          simp only [RNode.wfAt, Bool.and_eq_true, decide_eq_true_eq]
          refine ⟨⟨⟨trivial, by omega⟩, by omega⟩, ?hw2r⟩
          exact wfAtL_of_perm_subset (fun c hc => splitGroups_mem ops p _ (Or.inr hc)) hall
        have hh1 := wfAt_heightB ops (by omega : 1 ≤ p.MIN_SIZE) _ _ hw1
        have hh2 := wfAt_heightB ops (by omega : 1 ≤ p.MIN_SIZE) _ _ hw2
        have hlb : heightLB [RNode.parent (envUnion ops (splitGroups ops p (newCs ++ [c2])).1)
              (splitGroups ops p (newCs ++ [c2])).1,
            RNode.parent (envUnion ops (splitGroups ops p (newCs ++ [c2])).2)
              (splitGroups ops p (newCs ++ [c2])).2] = heightLB cs + 1 := by
          simp only [heightLB, hh1, hh2]
          omega
        refine ⟨?hc1, ?hc2, ?hc3⟩
        · simp only [rootWfB, Bool.and_eq_true, decide_eq_true_eq]
          refine ⟨⟨trivial, by simpa using (by omega : 2 ≤ p.MAX_SIZE)⟩, ?hc1r⟩
          rw [hlb]
          simp only [wfAtL, Bool.and_eq_true]
          exact ⟨hw1, hw2, by trivial⟩
        · simp only [RNode.heightB]
          rw [hlb]
          omega
        · intro os oh h
          cases h
    · obtain ⟨hnew, horph, hoh, hlen2⟩ := hrecl
      simp only [Nat.add_sub_cancel] at hnew hoh
      have hnewne : newCs ≠ [] := by
        intro hnil
        rw [hnil] at hlen2
        exact hcsne (List.eq_nil_of_length_eq_zero hlen2.symm)
      have hht : heightLB newCs = heightLB cs :=
        wfAtL_heightLB ops (by omega) newCs (heightLB cs) hnew hnewne
      refine ⟨?hd1, ?hd2, ?hd3⟩
      · simp only [rootWfB, Bool.and_eq_true, decide_eq_true_eq]
        exact ⟨⟨trivial, by omega⟩, by rw [hht]; exact hnew⟩
      · simp [RNode.heightB, hht]
      · intro os oh2 h
        simp only at h
        cases h
        refine ⟨horph, ?hd4⟩
        simp [RNode.heightB, hht]
        omega
  · rw [if_neg hlt]
    have hhe : he = heightLB cs := by omega
    subst hhe
    have hall : wfAtL ops p.MIN_SIZE p.MAX_SIZE (cs ++ [e]) (heightLB cs) = true := by
      rw [wfAtL_append]
      simp only [Bool.and_eq_true]
      exact ⟨hcs, by simp [wfAtL, hwe]⟩
    have hne2 : (cs ++ [e]) ≠ [] := by simp
    have hht : heightLB (cs ++ [e]) = heightLB cs :=
      wfAtL_heightLB ops (by omega) _ _ hall hne2
    by_cases hov : (cs ++ [e]).length ≤ p.MAX_SIZE
    · rw [if_pos hov]
      refine ⟨?he1, ?he2, ?he3⟩
      · simp only [rootWfB, Bool.and_eq_true, decide_eq_true_eq]
        exact ⟨⟨trivial, hov⟩, by rw [hht]; exact hall⟩
      · simp [RNode.heightB, hht]
      · intro os oh h
        cases h
    · rw [if_neg hov]
      have hlen3 : (cs ++ [e]).length = p.MAX_SIZE + 1 := by
        simp only [List.length_append, List.length_cons, List.length_nil] at hov ⊢
        omega
      obtain ⟨⟨hg1a, hg1b⟩, hg2a, hg2b⟩ := splitGroups_props ops hp hlen3
      have hw1 : RNode.wfAt ops p.MIN_SIZE p.MAX_SIZE
          (RNode.parent (envUnion ops (splitGroups ops p (cs ++ [e])).1)
            (splitGroups ops p (cs ++ [e])).1) (heightLB cs + 1) = true := by
        simp only [RNode.wfAt, Bool.and_eq_true, decide_eq_true_eq]
        refine ⟨⟨⟨trivial, by omega⟩, by omega⟩, ?hw1s⟩
        exact wfAtL_of_perm_subset (fun c hc => splitGroups_mem ops p _ (Or.inl hc)) hall
      have hw2 : RNode.wfAt ops p.MIN_SIZE p.MAX_SIZE
          (RNode.parent (envUnion ops (splitGroups ops p (cs ++ [e])).2)
            (splitGroups ops p (cs ++ [e])).2) (heightLB cs + 1) = true := by
        simp only [RNode.wfAt, Bool.and_eq_true, decide_eq_true_eq]
        refine ⟨⟨⟨trivial, by omega⟩, by omega⟩, ?hw2s⟩
        exact wfAtL_of_perm_subset (fun c hc => splitGroups_mem ops p _ (Or.inr hc)) hall
      have hh1 := wfAt_heightB ops (by omega : 1 ≤ p.MIN_SIZE) _ _ hw1
      have hh2 := wfAt_heightB ops (by omega : 1 ≤ p.MIN_SIZE) _ _ hw2
      have hlb : heightLB [RNode.parent (envUnion ops (splitGroups ops p (cs ++ [e])).1)
            (splitGroups ops p (cs ++ [e])).1,
          RNode.parent (envUnion ops (splitGroups ops p (cs ++ [e])).2)
            (splitGroups ops p (cs ++ [e])).2] = heightLB cs + 1 := by
        simp only [heightLB, hh1, hh2]
        omega
      refine ⟨?hf1, ?hf2, ?hf3⟩
      · simp only [rootWfB, Bool.and_eq_true, decide_eq_true_eq]
        refine ⟨⟨trivial, by simpa using (by omega : 2 ≤ p.MAX_SIZE)⟩, ?hf1r⟩
        rw [hlb]
        simp only [wfAtL, Bool.and_eq_true]
        exact ⟨hw1, hw2, by trivial⟩
      · simp only [RNode.heightB]
        rw [hlb]
        omega
      · intro os oh h
        cases h

theorem insertLoop_wf {α : Type} {d : Nat} (ops : ObjOps α d) (p : Params) (hp : p.valid) :
    ∀ (fuel : Nat) (excluded : List Nat) (pend : List (RNode α d × Nat)) (root r : RNode α d),
      rootWfB ops p root = true →
      (∀ eh ∈ pend, RNode.wfAt ops p.MIN_SIZE p.MAX_SIZE eh.1 eh.2 = true ∧
        eh.2 + 1 ≤ root.heightB) →
      insertLoop ops p fuel excluded pend root = some r →
      rootWfB ops p r = true := by
  intro fuel
  induction fuel with
  | zero =>
    intro excluded pend root r hroot hpend h
    cases pend with
    | nil => simp only [insertLoop] at h; cases h; exact hroot
    | cons e rest => simp [insertLoop] at h
  | succ fuel ih =>
    intro excluded pend root r hroot hpend h
    cases pend with
    | nil => simp only [insertLoop] at h; cases h; exact hroot
    | cons p0 rest =>
      rcases p0 with ⟨e, he⟩
      simp only [insertLoop] at h
      have hh := hpend (e, he) (List.mem_cons_self _ _)
      have honce := insertOnce_wf ops p excluded e he root hp hroot hh.1 hh.2
      rcases hres : insertOnce ops p excluded e he root with ⟨root2, orph⟩
      rw [hres] at h honce
      obtain ⟨hroot2, hmono, horph⟩ := honce
      cases orph with
      | none =>
        refine ih excluded rest root2 r hroot2 ?hrest h
        intro eh heh
        have := hpend eh (List.mem_cons_of_mem _ heh)
        exact ⟨this.1, le_trans this.2 hmono⟩
      | some o =>
        rcases o with ⟨orphans, oh⟩
        have ho := horph orphans oh rfl
        refine ih ((oh + 1) :: excluded) (orphans.map (fun o => (o, oh)) ++ rest) root2 r
          hroot2 ?hpend2 h
        intro eh heh
        rw [List.mem_append] at heh
        rcases heh with heh | heh
        · rw [List.mem_map] at heh
          obtain ⟨o2, ho2, rfl⟩ := heh
          exact ⟨ho.1 o2 ho2, ho.2⟩
        · have := hpend eh (List.mem_cons_of_mem _ heh)
          exact ⟨this.1, le_trans this.2 hmono⟩

theorem RTree.insert_wf {α : Type} {d : Nat} (ops : ObjOps α d) (p : Params) (fuel : Nat)
    (t : RTree α d) (x : α) {t2 : RTree α d} (hp : p.valid) (hwf : t.WF ops p)
    (h : t.insert ops p fuel x = some t2) : t2.WF ops p := by
  obtain ⟨hroot, hsize⟩ := hwf
  have helems := RTree.insert_elems ops p fuel t x h
  unfold RTree.insert at h
  rcases hloop : insertLoop ops p fuel [] [(.leaf x, 0)] t.root with _ | r
  · rw [hloop] at h; cases h
  · rw [hloop] at h
    cases h
    constructor
    · refine insertLoop_wf ops p hp fuel [] [(.leaf x, 0)] t.root r hroot ?hpend hloop
      intro eh heh
      rcases List.mem_cons.mp heh with rfl | heh
      · refine ⟨rfl, ?hh⟩
        obtain ⟨e2, cs2, hroot2⟩ := rootWfB_isParent hroot
        rw [hroot2]
        simp [RNode.heightB]
      · cases heh
    · simp only [RNode.leafCount]
      rw [helems.1.length_eq]
      simp only [List.length_append, List.length_cons, List.length_nil]
      simp only [RNode.leafCount] at hsize
      omega

/-! ## Removal: bookkeeping and invariants -/
mutual
/-- A successful removal takes out exactly the removed object: the kept
subtree, the orphans and the object together are a permutation of the old
subtree's objects. -/
theorem removeNode_elems {α : Type} {d : Nat} (ops : ObjOps α d) (p : Params)
    (sel : RemovalSel α d) :
    ∀ (c : RNode α d) (obj : α) (newOpt : Option (RNode α d)) (orphans : List α),
      removeNode ops p sel c = .removed obj newOpt orphans →
      ((match newOpt with | none => ([] : List α) | some n => n.elems) ++
        orphans ++ [obj]).Perm c.elems
  | .leaf o, obj, newOpt, orphans => by
    intro h
    simp only [removeNode] at h
    by_cases hr : sel.should_remove o = true
    · rw [if_pos hr] at h
      cases h
      simp [RNode.elems]
    · rw [if_neg hr] at h
      cases h
  | .parent env cs, obj, newOpt, orphans => by
    intro h
    simp only [removeNode] at h
    rcases hres : removeRecL ops p sel cs with _ | ⟨obj0, l, or0⟩
    · rw [hres] at h; cases h
    · rw [hres] at h
      dsimp only at h
      have hih := removeRecL_elems ops p sel cs obj0 l or0 hres
      by_cases hu : l.length < p.MIN_SIZE
      · rw [if_pos hu] at h
        cases h
        simp only [RNode.elems, List.nil_append]
        refine List.Perm.trans ?ha hih
        simp [List.append_assoc]
      · rw [if_neg hu] at h
        cases h
        simp only [RNode.elems]
        exact hih
/-- Companion bookkeeping on the child list. -/
theorem removeRecL_elems {α : Type} {d : Nat} (ops : ObjOps α d) (p : Params)
    (sel : RemovalSel α d) :
    ∀ (cs : List (RNode α d)) (obj : α) (l : List (RNode α d)) (orphans : List α),
      removeRecL ops p sel cs = some (obj, l, orphans) →
      (elemsL l ++ orphans ++ [obj]).Perm (elemsL cs)
  | [], obj, l, orphans => by intro h; simp [removeRecL] at h
  | c :: rest, obj, l, orphans => by
    intro h
    simp only [removeRecL] at h
    by_cases hd : sel.should_descend (c.envOf ops) = true
    · rw [if_pos hd] at h
      rcases hn : removeNode ops p sel c with _ | ⟨obj2, newOpt, or2⟩
      · rw [hn] at h
        rcases hrest : removeRecL ops p sel rest with _ | ⟨obj3, l3, or3⟩
        · rw [hrest] at h; cases h
        · rw [hrest] at h
          cases h
          have hih := removeRecL_elems ops p sel rest obj3 l3 or3 hrest
          simp only [elemsL, List.append_assoc] at hih ⊢
          exact List.Perm.append_left _ hih
      · rw [hn] at h
        have hne := removeNode_elems ops p sel c obj2 newOpt or2 hn
        cases newOpt with
        | none =>
          cases h
          simp only [List.nil_append] at hne
          simp only [elemsL, List.append_assoc] at hne ⊢
          exact List.Perm.trans List.perm_append_comm (hne.append_right _)
        | some c2 =>
          cases h
          simp only [elemsL, List.append_assoc] at hne ⊢
          refine List.Perm.trans (List.Perm.append_left _ List.perm_append_comm) ?hd2
          rw [← List.append_assoc]
          exact hne.append_right _
    · rw [if_neg hd] at h
      rcases hrest : removeRecL ops p sel rest with _ | ⟨obj3, l3, or3⟩
      · rw [hrest] at h; cases h
      · rw [hrest] at h
        cases h
        have hih := removeRecL_elems ops p sel rest obj3 l3 or3 hrest
        simp only [elemsL, List.append_assoc] at hih ⊢
        exact List.Perm.append_left _ hih
end

mutual
/-- The removed object is the first object of the selection traversal with
the same predicate pair (the first match in traversal order). -/
theorem removeNode_sel {α : Type} {d : Nat} (ops : ObjOps α d) (p : Params)
    (sel : RemovalSel α d) :
    ∀ c : RNode α d,
      (removeNode ops p sel c = .notFound →
        selNode ops sel.should_descend sel.should_remove c = []) ∧
      (∀ obj newOpt orphans, removeNode ops p sel c = .removed obj newOpt orphans →
        (selNode ops sel.should_descend sel.should_remove c).head? = some obj)
  | .leaf o => by
    constructor
    · intro h
      simp only [removeNode] at h
      by_cases hr : sel.should_remove o = true
      · rw [if_pos hr] at h; cases h
      · simp [selNode, hr]
    · intro obj newOpt orphans h
      simp only [removeNode] at h
      by_cases hr : sel.should_remove o = true
      · rw [if_pos hr] at h
        cases h
        simp [selNode, hr]
      · rw [if_neg hr] at h; cases h
  | .parent env cs => by
    constructor
    · intro h
      simp only [removeNode] at h
      rcases hres : removeRecL ops p sel cs with _ | r
      · simp only [selNode]
        exact (removeRecL_sel ops p sel cs).1 hres
      · rw [hres] at h
        by_cases hu : r.2.1.length < p.MIN_SIZE <;> simp [hu] at h
    · intro obj newOpt orphans h
      simp only [removeNode] at h
      rcases hres : removeRecL ops p sel cs with _ | ⟨obj0, l, or0⟩
      · rw [hres] at h; cases h
      · rw [hres] at h
        dsimp only at h
        have := (removeRecL_sel ops p sel cs).2 obj0 l or0 hres
        by_cases hu : l.length < p.MIN_SIZE
        · rw [if_pos hu] at h
          cases h
          simpa [selNode] using this
        · rw [if_neg hu] at h
          cases h
          simpa [selNode] using this
/-- Companion on the child list. -/
theorem removeRecL_sel {α : Type} {d : Nat} (ops : ObjOps α d) (p : Params)
    (sel : RemovalSel α d) :
    ∀ cs : List (RNode α d),
      (removeRecL ops p sel cs = none →
        selL ops sel.should_descend sel.should_remove cs = []) ∧
      (∀ obj l orphans, removeRecL ops p sel cs = some (obj, l, orphans) →
        (selL ops sel.should_descend sel.should_remove cs).head? = some obj)
  | [] => by
    constructor
    · intro _; rfl
    · intro obj l orphans h; simp [removeRecL] at h
  | c :: rest => by
    constructor
    · intro h
      simp only [removeRecL] at h
      simp only [selL]
      by_cases hd : sel.should_descend (c.envOf ops) = true
      · rw [if_pos hd] at h
        rw [if_pos hd]
        rcases hn : removeNode ops p sel c with _ | ⟨obj2, newOpt, or2⟩
        · rw [hn] at h
          rcases hrest : removeRecL ops p sel rest with _ | r3
          · rw [(removeNode_sel ops p sel c).1 hn]
            rw [(removeRecL_sel ops p sel rest).1 hrest]
            try rfl
          · rw [hrest] at h; cases h
        · rw [hn] at h
          cases newOpt <;> cases h
      · rw [if_neg hd] at h
        rw [if_neg hd]
        rcases hrest : removeRecL ops p sel rest with _ | r3
        · rw [(removeRecL_sel ops p sel rest).1 hrest]
          try rfl
        · rw [hrest] at h; cases h
    · intro obj l orphans h
      simp only [removeRecL] at h
      simp only [selL]
      by_cases hd : sel.should_descend (c.envOf ops) = true
      · rw [if_pos hd] at h
        rw [if_pos hd]
        rcases hn : removeNode ops p sel c with _ | ⟨obj2, newOpt, or2⟩
        · rw [hn] at h
          rw [(removeNode_sel ops p sel c).1 hn]
          rcases hrest : removeRecL ops p sel rest with _ | ⟨obj3, l3, or3⟩
          · rw [hrest] at h; cases h
          · rw [hrest] at h
            cases h
            simpa using (removeRecL_sel ops p sel rest).2 obj3 l3 or3 hrest
        · rw [hn] at h
          have hh := (removeNode_sel ops p sel c).2 obj2 newOpt or2 hn
          cases newOpt with
          | none =>
            cases h
            rcases hsel : selNode ops sel.should_descend sel.should_remove c with _ | ⟨a, l3⟩
            · rw [hsel] at hh; cases hh
            · rw [hsel] at hh
              simpa using hh
          | some c2 =>
            cases h
            rcases hsel : selNode ops sel.should_descend sel.should_remove c with _ | ⟨a, l3⟩
            · rw [hsel] at hh; cases hh
            · rw [hsel] at hh
              simpa using hh
      · rw [if_neg hd] at h
        rw [if_neg hd]
        rcases hrest : removeRecL ops p sel rest with _ | ⟨obj3, l3, or3⟩
        · rw [hrest] at h; cases h
        · rw [hrest] at h
          cases h
          simpa using (removeRecL_sel ops p sel rest).2 obj3 l3 or3 hrest
end

mutual
/-- Removal preserves the invariants of every kept node. -/
theorem removeNode_wf {α : Type} {d : Nat} (ops : ObjOps α d) (p : Params)
    (sel : RemovalSel α d) :
    ∀ (c : RNode α d) (h : Nat), RNode.wfAt ops p.MIN_SIZE p.MAX_SIZE c h = true →
      ∀ obj c2 orphans, removeNode ops p sel c = .removed obj (some c2) orphans →
        RNode.wfAt ops p.MIN_SIZE p.MAX_SIZE c2 h = true
  | .leaf o, h => by
    intro hw obj c2 orphans hrem
    simp only [removeNode] at hrem
    by_cases hr : sel.should_remove o = true
    · rw [if_pos hr] at hrem; cases hrem
    · rw [if_neg hr] at hrem; cases hrem
  | .parent env cs, h => by
    intro hw obj c2 orphans hrem
    obtain ⟨h2, rfl⟩ : ∃ h2, h = h2 + 1 := by
      cases h with
      | zero => simp [RNode.wfAt] at hw
      | succ h2 => exact ⟨h2, rfl⟩
    simp only [RNode.wfAt, Bool.and_eq_true, decide_eq_true_eq] at hw
    obtain ⟨⟨⟨henv, hlo⟩, hhi⟩, hcs⟩ := hw
    simp only [removeNode] at hrem
    rcases hres : removeRecL ops p sel cs with _ | ⟨obj0, l, or0⟩
    · rw [hres] at hrem; cases hrem
    · rw [hres] at hrem
      dsimp only at hrem
      have hih := removeRecL_wfThm ops p sel cs h2 hcs obj0 l or0 hres
      by_cases hu : l.length < p.MIN_SIZE
      · rw [if_pos hu] at hrem; cases hrem
      · rw [if_neg hu] at hrem
        cases hrem
        simp only [RNode.wfAt, Bool.and_eq_true, decide_eq_true_eq]
        exact ⟨⟨⟨trivial, by omega⟩, by omega⟩, hih.1⟩
/-- Companion on the child list: the kept list stays well-formed and loses at
most one entry. -/
theorem removeRecL_wfThm {α : Type} {d : Nat} (ops : ObjOps α d) (p : Params)
    (sel : RemovalSel α d) :
    ∀ (cs : List (RNode α d)) (h : Nat), wfAtL ops p.MIN_SIZE p.MAX_SIZE cs h = true →
      ∀ obj l orphans, removeRecL ops p sel cs = some (obj, l, orphans) →
        wfAtL ops p.MIN_SIZE p.MAX_SIZE l h = true ∧
        l.length ≤ cs.length ∧ cs.length ≤ l.length + 1
  | [], h => by
    intro _ obj l orphans hrem
    simp [removeRecL] at hrem
  | c :: rest, h => by
    intro hw obj l orphans hrem
    simp only [wfAtL, Bool.and_eq_true] at hw
    simp only [removeRecL] at hrem
    by_cases hd : sel.should_descend (c.envOf ops) = true
    · rw [if_pos hd] at hrem
      rcases hn : removeNode ops p sel c with _ | ⟨obj2, newOpt, or2⟩
      · rw [hn] at hrem
        rcases hrest : removeRecL ops p sel rest with _ | ⟨obj3, l3, or3⟩
        · rw [hrest] at hrem; cases hrem
        · rw [hrest] at hrem
          cases hrem
          have hih := removeRecL_wfThm ops p sel rest h hw.2 obj3 l3 or3 hrest
          refine ⟨by simp [wfAtL, hw.1, hih.1], ?hlen⟩
          simp only [List.length_cons]
          omega
      · rw [hn] at hrem
        cases newOpt with
        | none =>
          cases hrem
          exact ⟨hw.2, by simp only [List.length_cons]; omega⟩
        | some c2 =>
          cases hrem
          have hc2 := removeNode_wf ops p sel c h hw.1 obj c2 orphans hn
          exact ⟨by simp [wfAtL, hc2, hw.2], by simp only [List.length_cons]; omega⟩
    · rw [if_neg hd] at hrem
      rcases hrest : removeRecL ops p sel rest with _ | ⟨obj3, l3, or3⟩
      · rw [hrest] at hrem; cases hrem
      · rw [hrest] at hrem
        cases hrem
        have hih := removeRecL_wfThm ops p sel rest h hw.2 obj3 l3 or3 hrest
        refine ⟨by simp [wfAtL, hw.1, hih.1], ?hlen2⟩
        simp only [List.length_cons]
        omega
end

theorem removeRoot_elems {α : Type} {d : Nat} (ops : ObjOps α d) (p : Params)
    (sel : RemovalSel α d) (root : RNode α d) {obj : α} {root2 : RNode α d}
    {orphans : List α} (h : removeRoot ops p sel root = some (obj, root2, orphans)) :
    (root2.elems ++ orphans ++ [obj]).Perm root.elems := by
  cases root with
  | leaf o => simp [removeRoot] at h
  | parent env cs =>
    simp only [removeRoot] at h
    rcases hres : removeRecL ops p sel cs with _ | ⟨obj0, l, or0⟩
    · rw [hres] at h; cases h
    · rw [hres] at h
      cases h
      simpa [RNode.elems] using removeRecL_elems ops p sel cs obj0 l or0 hres

theorem removeRoot_none_unchanged {α : Type} {d : Nat} (ops : ObjOps α d) (p : Params)
    (sel : RemovalSel α d) (root : RNode α d) (h : removeRoot ops p sel root = none) :
    True := trivial

theorem removeRoot_sel {α : Type} {d : Nat} (ops : ObjOps α d) (p : Params)
    (sel : RemovalSel α d) (root : RNode α d) {obj : α} {root2 : RNode α d}
    {orphans : List α} (h : removeRoot ops p sel root = some (obj, root2, orphans)) :
    (selNode ops sel.should_descend sel.should_remove root).head? = some obj := by
  cases root with
  | leaf o => simp [removeRoot] at h
  | parent env cs =>
    simp only [removeRoot] at h
    rcases hres : removeRecL ops p sel cs with _ | ⟨obj0, l, or0⟩
    · rw [hres] at h; cases h
    · rw [hres] at h
      cases h
      simpa [selNode] using (removeRecL_sel ops p sel cs).2 obj0 l or0 hres

theorem removeRoot_wf {α : Type} {d : Nat} (ops : ObjOps α d) (p : Params)
    (sel : RemovalSel α d) (root : RNode α d) {obj : α} {root2 : RNode α d}
    {orphans : List α} (hp : p.valid) (hroot : rootWfB ops p root = true)
    (h : removeRoot ops p sel root = some (obj, root2, orphans)) :
    rootWfB ops p root2 = true := by
  obtain ⟨env, cs, rfl⟩ := rootWfB_isParent hroot
  simp only [rootWfB, Bool.and_eq_true, decide_eq_true_eq] at hroot
  obtain ⟨⟨henv, hhi⟩, hcs⟩ := hroot
  simp only [removeRoot] at h
  rcases hres : removeRecL ops p sel cs with _ | ⟨obj0, l, or0⟩
  · rw [hres] at h; cases h
  · rw [hres] at h
    cases h
    obtain ⟨hl, hlen1, hlen2⟩ := removeRecL_wfThm ops p sel cs (heightLB cs) hcs obj0 l or0 hres
    simp only [rootWfB, Bool.and_eq_true, decide_eq_true_eq]
    refine ⟨⟨trivial, by omega⟩, ?hwl⟩
    cases hl2 : l with
    | nil => rfl
    | cons c2 rest2 =>
      rw [← hl2]
      have hne : l ≠ [] := by rw [hl2]; simp
      rw [wfAtL_heightLB ops (by have := hp.1; omega) l (heightLB cs) hl hne]
      exact hl

theorem shrinkRoot_elems {α : Type} {d : Nat} (r : RNode α d) :
    (shrinkRoot r).elems = r.elems := by
  cases r with
  | leaf o => rfl
  | parent e cs =>
    rcases cs with _ | ⟨c, rest⟩
    · rfl
    · rcases c with o | ⟨e2, cs2⟩
      · rfl
      · rcases rest with _ | ⟨c2, rest2⟩
        · simp [shrinkRoot, RNode.elems, elemsL]
        · rfl

theorem shrinkRoot_wf {α : Type} {d : Nat} (ops : ObjOps α d) (p : Params) (r : RNode α d)
    (hp : p.valid) (hroot : rootWfB ops p r = true) :
    rootWfB ops p (shrinkRoot r) = true := by
  cases r with
  | leaf o => simpa [shrinkRoot] using hroot
  | parent e cs =>
    rcases cs with _ | ⟨c, rest⟩
    · simpa [shrinkRoot] using hroot
    · rcases c with o | ⟨e2, cs2⟩
      · simpa [shrinkRoot] using hroot
      · rcases rest with _ | ⟨c2, rest2⟩
        · simp only [rootWfB, Bool.and_eq_true, decide_eq_true_eq] at hroot
          obtain ⟨⟨henv, hhi⟩, hcs⟩ := hroot
          simp only [wfAtL, Bool.and_eq_true] at hcs
          have hw := hcs.1
          have hht : heightLB [RNode.parent e2 cs2] = (RNode.parent e2 cs2).heightB := by
            simp [heightLB]
          rw [hht] at hw
          have hhb : (RNode.parent e2 cs2).heightB = heightLB cs2 + 1 := rfl
          rw [hhb] at hw
          simp only [RNode.wfAt, Bool.and_eq_true, decide_eq_true_eq] at hw
          obtain ⟨⟨⟨henv2, hlo2⟩, hhi2⟩, hcs2⟩ := hw
          show rootWfB ops p (RNode.parent e2 cs2) = true
          simp only [rootWfB, Bool.and_eq_true, decide_eq_true_eq]
          exact ⟨⟨henv2, by omega⟩, hcs2⟩
        · simpa [shrinkRoot] using hroot

theorem reinsertAll_elems {α : Type} {d : Nat} (ops : ObjOps α d) (p : Params) (fuel : Nat) :
    ∀ (os : List α) (root r : RNode α d), reinsertAll ops p fuel os root = some r →
      r.elems.Perm (root.elems ++ os)
  | [], root, r => by
    intro h
    simp only [reinsertAll] at h
    cases h
    simp
  | o :: rest, root, r => by
    intro h
    simp only [reinsertAll] at h
    rcases hloop : insertLoop ops p fuel [] [(.leaf o, 0)] root with _ | root2
    · rw [hloop] at h; cases h
    · rw [hloop] at h
      have h1 := insertLoop_elems ops p fuel [] [(.leaf o, 0)] root root2 hloop
      have h2 := reinsertAll_elems ops p fuel rest root2 r h
      simp only [List.map_cons, List.map_nil, elemsL, RNode.elems, List.append_nil] at h1
      refine List.Perm.trans h2 ?ha
      refine List.Perm.trans (h1.append_right rest) ?hb
      simp [List.append_assoc]

theorem reinsertAll_wf {α : Type} {d : Nat} (ops : ObjOps α d) (p : Params) (fuel : Nat)
    (hp : p.valid) :
    ∀ (os : List α) (root r : RNode α d), rootWfB ops p root = true →
      reinsertAll ops p fuel os root = some r → rootWfB ops p r = true
  | [], root, r => by
    intro hroot h
    simp only [reinsertAll] at h
    cases h
    exact hroot
  | o :: rest, root, r => by
    intro hroot h
    simp only [reinsertAll] at h
    rcases hloop : insertLoop ops p fuel [] [(.leaf o, 0)] root with _ | root2
    · rw [hloop] at h; cases h
    · rw [hloop] at h
      have hroot2 : rootWfB ops p root2 = true := by
        refine insertLoop_wf ops p hp fuel [] [(.leaf o, 0)] root root2 hroot ?hpend hloop
        intro eh heh
        rcases List.mem_cons.mp heh with rfl | heh
        · refine ⟨rfl, ?hh⟩
          obtain ⟨e2, cs2, hr2⟩ := rootWfB_isParent hroot
          rw [hr2]
          simp [RNode.heightB]
        · cases heh
      exact reinsertAll_wf ops p fuel hp rest root2 r hroot2 h

/-- The source glue of `remove_with_selector`: a `none` result leaves the
tree untouched; a successful removal removes exactly the first object
matching the selector in traversal order and decrements `size` by one. -/
theorem RTree.remove_with_selector_correct {α : Type} {d : Nat} (ops : ObjOps α d)
    (p : Params) (fuel : Nat) (sel : RemovalSel α d) (t : RTree α d)
    {res : Option α} {t2 : RTree α d}
    (h : t.remove_with_selector ops p fuel sel = some (res, t2)) :
    (res = none → t2 = t) ∧
    (∀ obj, res = some obj → t2.size = t.size - 1 ∧
      (t2.root.elems ++ [obj]).Perm t.root.elems ∧
      (selNode ops sel.should_descend sel.should_remove t.root).head? = some obj) := by
  unfold RTree.remove_with_selector at h
  rcases hrem : removeRoot ops p sel t.root with _ | ⟨obj0, root2, orphans⟩
  · rw [hrem] at h
    cases h
    exact ⟨fun _ => rfl, fun obj hobj => by cases hobj⟩
  · rw [hrem] at h
    dsimp only at h
    rcases hra : reinsertAll ops p fuel orphans root2 with _ | root3
    · rw [hra] at h; cases h
    · rw [hra] at h
      cases h
      constructor
      · intro hc
        cases hc
      intro obj hobj
      cases hobj
      refine ⟨rfl, ?helems, removeRoot_sel ops p sel t.root hrem⟩
      simp only [shrinkRoot_elems]
      have h1 := reinsertAll_elems ops p fuel orphans root2 root3 hra
      have h2 := removeRoot_elems ops p sel t.root hrem
      refine List.Perm.trans (h1.append_right [obj0]) ?hp2
      simpa [List.append_assoc] using h2

/-- Well-formedness is preserved by `remove_with_selector`. -/
theorem RTree.remove_with_selector_wf {α : Type} {d : Nat} (ops : ObjOps α d)
    (p : Params) (fuel : Nat) (sel : RemovalSel α d) (t : RTree α d)
    {res : Option α} {t2 : RTree α d} (hp : p.valid) (hwf : t.WF ops p)
    (h : t.remove_with_selector ops p fuel sel = some (res, t2)) : t2.WF ops p := by
  obtain ⟨hroot, hsize⟩ := hwf
  unfold RTree.remove_with_selector at h
  rcases hrem : removeRoot ops p sel t.root with _ | ⟨obj0, root2, orphans⟩
  · rw [hrem] at h
    cases h
    exact ⟨hroot, hsize⟩
  · rw [hrem] at h
    dsimp only at h
    rcases hra : reinsertAll ops p fuel orphans root2 with _ | root3
    · rw [hra] at h; cases h
    · rw [hra] at h
      cases h
      constructor
      · exact shrinkRoot_wf ops p root3 hp
          (reinsertAll_wf ops p fuel hp orphans root2 root3
            (removeRoot_wf ops p sel t.root hp hroot hrem) hra)
      · simp only [RNode.leafCount, shrinkRoot_elems]
        have h1 := reinsertAll_elems ops p fuel orphans root2 root3 hra
        have h2 := removeRoot_elems ops p sel t.root hrem
        have hlen1 := h1.length_eq
        have hlen2 := h2.length_eq
        simp only [List.length_append, List.length_cons, List.length_nil] at hlen1 hlen2
        simp only [RNode.leafCount] at hsize
        omega

theorem chunksAux_flatten {β : Type} {s : Nat} (hs : 1 ≤ s) :
    ∀ (fuel : Nat) (l : List β), l.length ≤ fuel → (chunksAux s fuel l).flatten = l := by
  intro fuel
  induction fuel with
  | zero =>
    intro l hl
    cases l with
    | nil => rfl
    | cons a l2 => simp at hl
  | succ fuel ih =>
    intro l hl
    cases l with
    | nil => rfl
    | cons a l2 =>
      simp only [chunksAux, List.flatten_cons]
      have hd : ((a :: l2).drop s).length ≤ fuel := by
        have hs2 : 1 ≤ s := hs
        simp only [List.length_drop, List.length_cons] at hl ⊢
        omega
      rw [ih ((a :: l2).drop s) hd]
      exact List.take_append_drop s _

theorem elemsL_map_leaf {α : Type} {d : Nat} (objs : List α) :
    elemsL (objs.map (RNode.leaf (d := d))) = objs := by
  induction objs with
  | nil => rfl
  | cons a l ih => simp [elemsL, RNode.elems, ih]

theorem elemsL_flatten_perm {α : Type} {d : Nat} (g : List α → RNode α d) :
    ∀ slabs : List (List α), (∀ c ∈ slabs, (g c).elems.Perm c) →
      (elemsL (slabs.map g)).Perm slabs.flatten := by
  intro slabs
  induction slabs with
  | nil => intro _; rfl
  | cons c rest ih =>
    intro hall
    simp only [List.map_cons, elemsL, List.flatten_cons]
    exact (hall c (List.mem_cons_self _ _)).append
      (ih (fun c2 hc2 => hall c2 (List.mem_cons_of_mem _ hc2)))

/-- The bulk loader stores exactly the input objects. -/
theorem bulkAux_elems {α : Type} {d : Nat} (ops : ObjOps α d) (p : Params)
    (hM : 1 ≤ p.MAX_SIZE) :
    ∀ (fuel axis : Nat) (objs : List α), (bulkAux ops p fuel axis objs).elems.Perm objs := by
  intro fuel
  induction fuel with
  | zero =>
    intro axis objs
    simp [bulkAux, RNode.elems, elemsL_map_leaf]
  | succ fuel ih =>
    intro axis objs
    simp only [bulkAux]
    by_cases hlen : objs.length ≤ p.MAX_SIZE
    · rw [if_pos hlen]
      simp [RNode.elems, elemsL_map_leaf]
    · rw [if_neg hlen]
      simp only [RNode.elems]
      have hperm : (objs.mergeSort (fun a b =>
          decide (centerCoord ops axis a ≤ centerCoord ops axis b))).Perm objs :=
        List.mergeSort_perm objs _
      have hflat : (chunks (p.MAX_SIZE ^ (Nat.clog p.MAX_SIZE objs.length - 1))
          (objs.mergeSort (fun a b =>
            decide (centerCoord ops axis a ≤ centerCoord ops axis b)))).flatten =
          objs.mergeSort (fun a b =>
            decide (centerCoord ops axis a ≤ centerCoord ops axis b)) := by
        apply chunksAux_flatten (Nat.one_le_iff_ne_zero.mpr (by positivity))
        exact le_rfl
      refine List.Perm.trans (elemsL_flatten_perm _ _ (fun c _ => ih (axis + 1) c)) ?ha
      rw [hflat]
      exact hperm

theorem seqInsert_elems {α : Type} {d : Nat} (ops : ObjOps α d) (p : Params) (fuel : Nat) :
    ∀ (xs : List α) (t t2 : RTree α d), seqInsert ops p fuel xs t = some t2 →
      t2.root.elems.Perm (t.root.elems ++ xs) ∧ t2.size = t.size + xs.length
  | [], t, t2 => by
    intro h
    simp only [seqInsert] at h
    cases h
    simp
  | x :: rest, t, t2 => by
    intro h
    simp only [seqInsert] at h
    rcases hins : t.insert ops p fuel x with _ | t3
    · rw [hins] at h; cases h
    · rw [hins] at h
      obtain ⟨hp1, hp2⟩ := RTree.insert_elems ops p fuel t x hins
      obtain ⟨hq1, hq2⟩ := seqInsert_elems ops p fuel rest t3 t2 h
      constructor
      · refine List.Perm.trans hq1 ?ha
        refine List.Perm.trans (hp1.append_right rest) ?hb
        simp [List.append_assoc]
      · simp only [List.length_cons]
        omega

theorem popMinQ_none {α : Type} {d : Nat} :
    ∀ {l : List (QEntry α d)}, popMinQ l = none → l = [] := by
  intro l h
  cases l with
  | nil => rfl
  | cons e rest =>
    simp only [popMinQ] at h
    rcases hr : popMinQ rest with _ | m <;> rw [hr] at h
    · cases h
    · by_cases hk : e.key ≤ m.1.key <;> simp [hk] at h

theorem popMinQ_perm {α : Type} {d : Nat} :
    ∀ {l : List (QEntry α d)} {e : QEntry α d} {r : List (QEntry α d)},
      popMinQ l = some (e, r) → (e :: r).Perm l := by
  intro l
  induction l with
  | nil => intro e r h; simp [popMinQ] at h
  | cons a rest ih =>
    intro e r h
    simp only [popMinQ] at h
    rcases hr : popMinQ rest with _ | m <;> rw [hr] at h
    · cases h
      have : rest = [] := popMinQ_none hr
      rw [this]
    · dsimp only at h
      by_cases hk : a.key ≤ m.1.key
      · rw [if_pos hk] at h
        cases h
        exact List.Perm.refl _
      · rw [if_neg hk] at h
        cases h
        have hperm := ih hr
        refine List.Perm.trans (List.Perm.swap a m.1 m.2) ?ha
        exact hperm.cons a

theorem popMinQ_min {α : Type} {d : Nat} :
    ∀ {l : List (QEntry α d)} {e : QEntry α d} {r : List (QEntry α d)},
      popMinQ l = some (e, r) → ∀ x ∈ r, e.key ≤ x.key := by
  intro l
  induction l with
  | nil => intro e r h; simp [popMinQ] at h
  | cons a rest ih =>
    intro e r h
    simp only [popMinQ] at h
    rcases hr : popMinQ rest with _ | m <;> rw [hr] at h
    · cases h
      intro x hx
      cases hx
    · dsimp only at h
      by_cases hk : a.key ≤ m.1.key
      · rw [if_pos hk] at h
        cases h
        intro x hx
        have hperm := popMinQ_perm hr
        have : x ∈ m.1 :: m.2 := hperm.mem_iff.mpr hx
        rcases List.mem_cons.mp this with rfl | hx2
        · exact hk
        · exact le_trans hk (ih hr x hx2)
      · rw [if_neg hk] at h
        cases h
        intro x hx
        rcases List.mem_cons.mp hx with rfl | hx2
        · omega
        · exact ih hr x hx2

theorem qWeightL_perm {α : Type} {d : Nat} {l1 l2 : List (QEntry α d)} (h : l1.Perm l2) :
    qWeightL l1 = qWeightL l2 := (h.map qWeight).sum_eq

theorem qElemsL_perm {α : Type} {d : Nat} {l1 l2 : List (QEntry α d)} (h : l1.Perm l2) :
    (qElemsL l1).Perm (qElemsL l2) := (h.map qElems).flatten

theorem qWeightL_append {α : Type} {d : Nat} (l1 l2 : List (QEntry α d)) :
    qWeightL (l1 ++ l2) = qWeightL l1 + qWeightL l2 := by
  simp [qWeightL]

theorem nodeCountL_map_entry {α : Type} {d : Nat} (ops : ObjOps α d) (q : Pt d)
    (cs : List (RNode α d)) :
    qWeightL (cs.map (fun c => (⟨(c.envOf ops).min_distance_2 q, .node c⟩ : QEntry α d))) =
      2 * nodeCountL cs := by
  induction cs with
  | nil => simp [qWeightL, nodeCountL]
  | cons c rest ih =>
    simp only [List.map_cons, qWeightL, List.sum_cons, nodeCountL] at ih ⊢
    simp only [qWeight]
    omega

theorem qElemsL_map_entry {α : Type} {d : Nat} (ops : ObjOps α d) (q : Pt d)
    (cs : List (RNode α d)) :
    qElemsL (cs.map (fun c => (⟨(c.envOf ops).min_distance_2 q, .node c⟩ : QEntry α d))) =
      elemsL cs := by
  induction cs with
  | nil => rfl
  | cons c rest ih =>
    simp only [List.map_cons, qElemsL, List.flatten_cons] at ih ⊢
    rw [ih]
    simp [qElems, elemsL]

theorem map_qElems_entry {α : Type} {d : Nat} (key : RNode α d → Int)
    (cs : List (RNode α d)) :
    (cs.map (fun c => (⟨key c, .node c⟩ : QEntry α d))).map qElems = cs.map RNode.elems := by
  induction cs with
  | nil => rfl
  | cons c rest ih => simp only [List.map_cons, ih]; rfl

/-- The best-first run emits exactly the objects represented in the queue
(given enough fuel). -/
theorem nnRunF_perm {α : Type} {d : Nat} (ops : ObjOps α d) (q : Pt d) :
    ∀ (fuel : Nat) (queue : List (QEntry α d)), qWeightL queue < fuel →
      (nnRunF ops q fuel queue).Perm (qElemsL queue) := by
  intro fuel
  induction fuel with
  | zero => intro queue h; omega
  | succ fuel ih =>
    intro queue hw
    simp only [nnRunF]
    rcases hpop : popMinQ queue with _ | ⟨e, rest⟩
    · rw [popMinQ_none hpop]
      rfl
    · have hperm := popMinQ_perm hpop
      have hwp : qWeightL (e :: rest) = qWeightL queue := qWeightL_perm hperm
      have hep : (qElemsL (e :: rest)).Perm (qElemsL queue) := qElemsL_perm hperm
      rw [← hwp] at hw
      rcases e with ⟨k, item⟩
      rcases item with n | o
      · rcases n with o | ⟨env, cs⟩
        · dsimp only
          have hw2 : qWeightL ((⟨ops.distance_2 o q, .exactObj o⟩ : QEntry α d) :: rest) <
              fuel := by
            simp only [qWeightL, List.map_cons, List.sum_cons, qWeight,
              RNode.nodeCount] at hw ⊢
            omega
          refine List.Perm.trans (ih _ hw2) ?ha
          refine List.Perm.trans ?hb hep
          simp [qElemsL, qElems, RNode.elems]
        · dsimp only
          have hw2 : qWeightL (cs.map (fun c =>
              (⟨(c.envOf ops).min_distance_2 q, .node c⟩ : QEntry α d)) ++ rest) < fuel := by
            rw [qWeightL_append, nodeCountL_map_entry]
            simp only [qWeightL, List.map_cons, List.sum_cons, qWeight,
              RNode.nodeCount] at hw ⊢
            omega
          refine List.Perm.trans (ih _ hw2) ?hc
          refine List.Perm.trans ?hd hep
          simp only [qElemsL, List.map_append, List.flatten_append]
          rw [map_qElems_entry]
          simp only [List.map_cons, List.flatten_cons, qElems, RNode.elems]
          rw [← elemsL_eq_flatten]
      · dsimp only
        have hw2 : qWeightL rest < fuel := by
          simp only [qWeightL, List.map_cons, List.sum_cons, qWeight] at hw ⊢
          omega
        refine List.Perm.trans ((ih _ hw2).cons o) ?he
        refine List.Perm.trans ?hf hep
        simp [qElemsL, qElems]

theorem nnOk_validB {α : Type} {d : Nat} {ops : ObjOps α d} {n : RNode α d}
    (h : n.nnOk ops = true) : (n.envOf ops).validB = true := by
  cases n with
  | leaf o => exact h
  | parent e cs =>
    simp only [RNode.nnOk, Bool.and_eq_true] at h
    exact h.1.1

theorem nnOkL_mem {α : Type} {d : Nat} {ops : ObjOps α d} {cs : List (RNode α d)}
    (h : nnOkL ops cs = true) : ∀ c ∈ cs, c.nnOk ops = true := by
  induction cs with
  | nil => intro c hc; cases hc
  | cons c2 rest ih =>
    simp only [nnOkL, Bool.and_eq_true] at h
    intro c hc
    rcases List.mem_cons.mp hc with rfl | hc
    · exact h.1
    · exact ih h.2 c hc

mutual
/-- The full invariants imply the search invariants (objects assumed to have
valid envelopes). -/
theorem wfAt_nnOk {α : Type} {d : Nat} (ops : ObjOps α d) {m M : Nat}
    (hv : ∀ x, (ops.envelope x).validB = true) (hm : 1 ≤ m) :
    ∀ (n : RNode α d) (h : Nat), RNode.wfAt ops m M n h = true → n.nnOk ops = true
  | .leaf o, h => fun _ => hv o
  | .parent e cs, h => by
    intro hw
    obtain ⟨h2, rfl⟩ : ∃ h2, h = h2 + 1 := by
      cases h with
      | zero => simp [RNode.wfAt] at hw
      | succ h2 => exact ⟨h2, rfl⟩
    simp only [RNode.wfAt, Bool.and_eq_true, decide_eq_true_eq] at hw
    obtain ⟨⟨⟨henv, hlo⟩, hhi⟩, hcs⟩ := hw
    have hok := wfAtL_nnOkL ops hv hm cs h2 hcs
    simp only [RNode.nnOk, Bool.and_eq_true, decide_eq_true_eq]
    refine ⟨⟨?hval, henv⟩, hok⟩
    cases cs with
    | nil => simp at hlo; omega
    | cons c rest =>
      have hc := nnOkL_mem hok c (List.mem_cons_self _ _)
      rw [henv]
      exact envMergeList_validB (List.mem_map_of_mem _ (List.mem_cons_self _ _))
        (nnOk_validB hc)
theorem wfAtL_nnOkL {α : Type} {d : Nat} (ops : ObjOps α d) {m M : Nat}
    (hv : ∀ x, (ops.envelope x).validB = true) (hm : 1 ≤ m) :
    ∀ (cs : List (RNode α d)) (h : Nat), wfAtL ops m M cs h = true → nnOkL ops cs = true
  | [], h => fun _ => rfl
  | c :: rest, h => by
    intro hw
    simp only [wfAtL, Bool.and_eq_true] at hw
    simp only [nnOkL, Bool.and_eq_true]
    exact ⟨wfAt_nnOk ops hv hm c h hw.1, wfAtL_nnOkL ops hv hm rest h hw.2⟩
end

/-- A well-formed root with at least one child satisfies the search
invariants. -/
theorem rootWfB_nnOk {α : Type} {d : Nat} (ops : ObjOps α d) (p : Params)
    {root : RNode α d} (hv : ∀ x, (ops.envelope x).validB = true) (hp : p.valid)
    (hroot : rootWfB ops p root = true) (hne : root.elems ≠ []) :
    root.nnOk ops = true := by
  obtain ⟨env, cs, rfl⟩ := rootWfB_isParent hroot
  simp only [rootWfB, Bool.and_eq_true, decide_eq_true_eq] at hroot
  obtain ⟨⟨henv, hhi⟩, hcs⟩ := hroot
  have hok := wfAtL_nnOkL ops hv (by have := hp.1; omega) cs (heightLB cs) hcs
  simp only [RNode.nnOk, Bool.and_eq_true, decide_eq_true_eq]
  refine ⟨⟨?hval, henv⟩, hok⟩
  cases cs with
  | nil => simp [RNode.elems, elemsL] at hne
  | cons c rest =>
    have hc := nnOkL_mem hok c (List.mem_cons_self _ _)
    rw [henv]
    exact envMergeList_validB (List.mem_map_of_mem _ (List.mem_cons_self _ _))
      (nnOk_validB hc)

/-- The emitted distances are bounded below by `lb` and non-decreasing,
whenever every queue entry is well-keyed with key at least `lb`. -/
theorem nnRunF_sorted {α : Type} {d : Nat} (ops : ObjOps α d) (q : Pt d)
    (hops : ops.WF) :
    ∀ (fuel : Nat) (queue : List (QEntry α d)) (lb : Int), qWeightL queue < fuel →
      (∀ e ∈ queue, entryOK ops q e ∧ lb ≤ e.key) →
      List.Sorted (· ≤ ·) ((nnRunF ops q fuel queue).map (fun x => ops.distance_2 x q)) ∧
      (∀ x ∈ nnRunF ops q fuel queue, lb ≤ ops.distance_2 x q) := by
  intro fuel
  induction fuel with
  | zero => intro queue lb h _; omega
  | succ fuel ih =>
    intro queue lb hw hinv
    simp only [nnRunF]
    rcases hpop : popMinQ queue with _ | ⟨e, rest⟩
    · exact ⟨List.sorted_nil, fun x hx => by cases hx⟩
    · have hperm := popMinQ_perm hpop
      have hmin := popMinQ_min hpop
      have hrest_mem : ∀ x ∈ rest, x ∈ queue := fun x hx =>
        hperm.mem_iff.mp (List.mem_cons_of_mem _ hx)
      have he_mem : e ∈ queue := hperm.mem_iff.mp (List.mem_cons_self _ _)
      have hwp : qWeightL (e :: rest) = qWeightL queue := qWeightL_perm hperm
      rw [← hwp] at hw
      obtain ⟨heOK, helb⟩ := hinv e he_mem
      rcases e with ⟨k, item⟩
      rcases item with n | o
      · rcases n with o | ⟨env, cs⟩
        · dsimp only
          obtain ⟨hkey, hok⟩ := heOK
          have hw2 : qWeightL ((⟨ops.distance_2 o q, .exactObj o⟩ : QEntry α d) :: rest) <
              fuel := by
            simp only [qWeightL, List.map_cons, List.sum_cons, qWeight,
              RNode.nodeCount] at hw ⊢
            omega
          refine ih _ lb hw2 ?hinv2
          intro e2 he2
          rcases List.mem_cons.mp he2 with rfl | he2
          · refine ⟨rfl, ?hlb2⟩
            show lb ≤ ops.distance_2 o q
            have helb2 : lb ≤ k := helb
            have := hops.2 o q
            simp only [RNode.envOf] at hkey
            omega
          · exact hinv e2 (hrest_mem e2 he2)
        · dsimp only
          obtain ⟨hkey, hok⟩ := heOK
          simp only [RNode.nnOk, Bool.and_eq_true, decide_eq_true_eq] at hok
          obtain ⟨⟨hval, henv⟩, hoks⟩ := hok
          have hw2 : qWeightL (cs.map (fun c =>
              (⟨(c.envOf ops).min_distance_2 q, .node c⟩ : QEntry α d)) ++ rest) < fuel := by
            rw [qWeightL_append, nodeCountL_map_entry]
            simp only [qWeightL, List.map_cons, List.sum_cons, qWeight,
              RNode.nodeCount] at hw ⊢
            omega
          refine ih _ lb hw2 ?hinv3
          intro e2 he2
          rcases List.mem_append.mp he2 with he2 | he2
          · rw [List.mem_map] at he2
            obtain ⟨c, hc, rfl⟩ := he2
            refine ⟨⟨rfl, nnOkL_mem hoks c hc⟩, ?hlb3⟩
            have hcont : env.contains_envelope (c.envOf ops) = true := by
              rw [henv]
              exact envMergeList_contains (List.mem_map_of_mem _ hc)
            have hne : c.envOf ops ≠ AABB.empty := by
              intro hnil
              have := nnOk_validB (nnOkL_mem hoks c hc)
              rw [hnil] at this
              simp [AABB.validB] at this
            have hmono := AABB.min_distance_2_mono q hne hcont
            show lb ≤ (c.envOf ops).min_distance_2 q
            have helb2 : lb ≤ k := helb
            simp only [RNode.envOf] at hkey
            omega
          · exact hinv e2 (hrest_mem e2 he2)
      · dsimp only
        have hw2 : qWeightL rest < fuel := by
          simp only [qWeightL, List.map_cons, List.sum_cons, qWeight] at hw ⊢
          omega
        have hinv2 : ∀ e2 ∈ rest, entryOK ops q e2 ∧ k ≤ e2.key := by
          intro e2 he2
          exact ⟨(hinv e2 (hrest_mem e2 he2)).1, hmin e2 he2⟩
        obtain ⟨hsorted, hge⟩ := ih rest k hw2 hinv2
        have hkey2 : k = ops.distance_2 o q := heOK
        have helb2 : lb ≤ k := helb
        constructor
        · simp only [List.map_cons]
          rw [List.sorted_cons]
          refine ⟨?hhead, hsorted⟩
          intro b hb
          rw [List.mem_map] at hb
          obtain ⟨x, hx, rfl⟩ := hb
          have := hge x hx
          omega
        · intro x hx
          rcases List.mem_cons.mp hx with rfl | hx
          · omega
          · have := hge x hx
            omega

mutual
/-- With the always-true selector the traversal yields every element
(no invariant needed). -/
theorem selNode_all {α : Type} {d : Nat} (ops : ObjOps α d) :
    ∀ n : RNode α d, selNode ops (fun _ => true) (fun _ => true) n = n.elems
  | .leaf o => by simp [selNode, RNode.elems]
  | .parent e cs => by
    simp only [selNode, RNode.elems]
    exact selL_all ops cs
theorem selL_all {α : Type} {d : Nat} (ops : ObjOps α d) :
    ∀ cs : List (RNode α d), selL ops (fun _ => true) (fun _ => true) cs = elemsL cs
  | [] => rfl
  | c :: cs => by
    simp only [selL, elemsL, if_pos]
    rw [selNode_all ops c, selL_all ops cs]
end

/-! ## Envelope invariant from the full invariants -/
mutual
/-- The full invariants imply the envelope invariant alone. -/
theorem wfAt_envOk {α : Type} {d : Nat} (ops : ObjOps α d) {m M : Nat} :
    ∀ (n : RNode α d) (h : Nat), RNode.wfAt ops m M n h = true → n.envOk ops = true
  | .leaf _, _ => fun _ => rfl
  | .parent e cs, h => by
    intro hw
    obtain ⟨h2, rfl⟩ : ∃ h2, h = h2 + 1 := by
      cases h with
      | zero => simp [RNode.wfAt] at hw
      | succ h2 => exact ⟨h2, rfl⟩
    simp only [RNode.wfAt, Bool.and_eq_true, decide_eq_true_eq] at hw
    obtain ⟨⟨⟨henv, _⟩, _⟩, hcs⟩ := hw
    simp only [RNode.envOk, Bool.and_eq_true, decide_eq_true_eq]
    exact ⟨henv, wfAtL_envOkL ops cs h2 hcs⟩
theorem wfAtL_envOkL {α : Type} {d : Nat} (ops : ObjOps α d) {m M : Nat} :
    ∀ (cs : List (RNode α d)) (h : Nat), wfAtL ops m M cs h = true → envOkL ops cs = true
  | [], _ => fun _ => rfl
  | c :: rest, h => by
    intro hw
    simp only [wfAtL, Bool.and_eq_true] at hw
    simp only [envOkL, Bool.and_eq_true]
    exact ⟨wfAt_envOk ops c h hw.1, wfAtL_envOkL ops rest h hw.2⟩
end

/-- A well-formed root satisfies the envelope invariant. -/
theorem rootWfB_envOk {α : Type} {d : Nat} {ops : ObjOps α d} {p : Params}
    {root : RNode α d} (hroot : rootWfB ops p root = true) : root.envOk ops = true := by
  obtain ⟨e, cs, rfl⟩ := rootWfB_isParent hroot
  simp only [rootWfB, Bool.and_eq_true, decide_eq_true_eq] at hroot
  obtain ⟨⟨henv, _⟩, hcs⟩ := hroot
  simp only [RNode.envOk, Bool.and_eq_true, decide_eq_true_eq]
  exact ⟨henv, wfAtL_envOkL ops cs (heightLB cs) hcs⟩

/-! ## The nearest-neighbour emission of a well-formed tree -/
/-- The emitted nearest-neighbour sequence of a well-formed tree is a
permutation of the stored objects, with non-decreasing distances. -/
theorem nn_iter_props {α : Type} {d : Nat} (ops : ObjOps α d) (p : Params)
    (t : RTree α d) (q : Pt d) (hops : ops.WF) (hp : p.valid) (hwf : t.WF ops p) :
    (t.nearest_neighbor_iter ops q).Perm t.root.elems ∧
    List.Sorted (· ≤ ·) ((t.nearest_neighbor_iter ops q).map
      (fun x => ops.distance_2 x q)) := by
  have hwq : qWeightL [(⟨(t.root.envOf ops).min_distance_2 q, .node t.root⟩ : QEntry α d)] <
      2 * t.root.nodeCount + 1 := by
    simp only [qWeightL, List.map_cons, List.map_nil, List.sum_cons, List.sum_nil, qWeight]
    omega
  have hperm : (t.nearest_neighbor_iter ops q).Perm t.root.elems := by
    have h0 := nnRunF_perm ops q (2 * t.root.nodeCount + 1)
      [(⟨(t.root.envOf ops).min_distance_2 q, .node t.root⟩ : QEntry α d)] hwq
    simpa [RTree.nearest_neighbor_iter, qElemsL, qElems] using h0
  refine ⟨hperm, ?hs⟩
  by_cases he : t.root.elems = []
  · rw [he] at hperm
    rw [hperm.eq_nil]
    exact List.sorted_nil
  · have hok : t.root.nnOk ops = true := rootWfB_nnOk ops p hops.1 hp hwf.1 he
    have hsorted := nnRunF_sorted ops q hops (2 * t.root.nodeCount + 1)
      [(⟨(t.root.envOf ops).min_distance_2 q, .node t.root⟩ : QEntry α d)]
      ((t.root.envOf ops).min_distance_2 q) hwq (by
        intro e heq
        rcases List.mem_cons.mp heq with rfl | hcontra
        · exact ⟨⟨rfl, hok⟩, le_refl _⟩
        · cases hcontra)
    exact hsorted.1

/-! ## The divisor of the projection -/
/-- The squared length of a difference vanishes exactly on equal points (a
sum of rational squares is zero only termwise). -/
theorem Ptq.length_2_sub_eq_zero_iff {d : Nat} (a b : Ptq d) :
    (a.sub b).length_2 = 0 ↔ a = b := by
  unfold Ptq.length_2 Ptq.dot Ptq.sub
  constructor
  · intro h
    funext i
    have hterm : ∀ j ∈ (Finset.univ : Finset (Fin d)), 0 ≤ (a j - b j) * (a j - b j) :=
      fun j _ => mul_self_nonneg _
    have h0 := (Finset.sum_eq_zero_iff_of_nonneg hterm).mp h i (Finset.mem_univ i)
    have h2 : a i - b i = 0 := mul_self_eq_zero.mp h0
    linarith
  · intro h
    subst h
    simp

/-- The concrete object interface is well-behaved. -/
theorem wOps_wf : wOps.WF := by
  constructor
  · intro x
    simp [wOps, AABB.validB]
  · intro x q
    show (AABB.box (fun _ => x) (fun _ => x)).min_distance_2 q ≤ (x - q 0) ^ 2
    simp only [AABB.min_distance_2]
    rw [Fin.sum_univ_one]
    have h1 : AABB.axDist x x (q 0) ^ 2 = (x - q 0) ^ 2 := by
      unfold AABB.axDist
      rcases le_total x (q 0) with h | h
      · have h2 : max (x - q 0) (max (q 0 - x) 0) = q 0 - x := by omega
        rw [h2]; ring
      · have h2 : max (x - q 0) (max (q 0 - x) 0) = x - q 0 := by omega
        rw [h2]
    rw [h1]

/-! ## The claims -/
/-- C1: for every tree reachable by any sequence of insert, remove and
bulk_load operations from an empty tree, the value returned by `size` equals
the number of leaf descendants of the root, and `iter` yields exactly `size`
elements. -/
theorem C1_size_counts_leaves {α : Type} {d : Nat} (ops : ObjOps α d) (p : Params)
    (t : RTree α d) (hp : p.valid) (hr : Reachable ops p t) :
    t.size = t.root.leafCount ∧ (t.iter ops).length = t.size := by
  have hsz : t.size = t.root.elems.length := by
    induction hr with
    | new => rfl
    | bulk_load objs =>
      have h1 := (bulkAux_elems ops p (by obtain ⟨h2, h3, _⟩ := hp; omega)
        objs.length 0 objs).length_eq
      exact h1.symm
    | insert fuel x hr hins ih =>
      obtain ⟨hperm, hsz2⟩ := RTree.insert_elems ops p fuel _ x hins
      have h1 := hperm.length_eq
      simp only [List.length_append, List.length_cons, List.length_nil] at h1
      omega
    | remove fuel sel hr hrem ih =>
      have hc := RTree.remove_with_selector_correct ops p fuel sel _ hrem
      rename_i tprev t2 res
      rcases res with _ | obj
      · have h1 := hc.1 rfl
        subst h1
        exact ih
      · obtain ⟨hsz2, hperm2, _⟩ := hc.2 obj rfl
        have h1 := hperm2.length_eq
        simp only [List.length_append, List.length_cons, List.length_nil] at h1
        omega
  refine ⟨hsz, ?hiter⟩
  simp only [RTree.iter, selNode_all ops]
  exact hsz.symm

/-- Witness for C1 at a concrete reachable tree. -/
theorem C1_size_counts_leaves_witness :
    wOne.size = wOne.root.leafCount ∧ (wOne.iter wOps).length = wOne.size :=
  C1_size_counts_leaves wOps DefaultParams wOne (by decide)
    (Reachable.insert 9 5 Reachable.new rfl)

/-- C2: on an empty tree `nearest_neighbor` returns none; on a non-empty tree
it returns some stored element whose distance to the query is minimal among
all stored elements. -/
theorem C2_nearest_neighbor_min {α : Type} {d : Nat} (ops : ObjOps α d) (p : Params)
    (t : RTree α d) (q : Pt d) (hops : ops.WF) (hp : p.valid) (hwf : t.WF ops p) :
    (t.size = 0 → t.nearest_neighbor ops q = none) ∧
    (0 < t.size → ∃ x, t.nearest_neighbor ops q = some x ∧ x ∈ t.iter ops ∧
      ∀ y ∈ t.iter ops, ops.distance_2 x q ≤ ops.distance_2 y q) := by
  constructor
  · intro h0
    unfold RTree.nearest_neighbor
    rw [if_neg (by omega)]
  · intro hpos
    obtain ⟨hperm, hsorted⟩ := nn_iter_props ops p t q hops hp hwf
    have hsz : t.size = t.root.elems.length := hwf.2
    have hne : t.nearest_neighbor_iter ops q ≠ [] := by
      intro hnil
      have h1 := hperm.length_eq
      rw [hnil] at h1
      simp only [List.length_nil] at h1
      omega
    rcases hiter : t.nearest_neighbor_iter ops q with _ | ⟨x, rest⟩
    · exact absurd hiter hne
    · rw [hiter] at hperm hsorted
      refine ⟨x, ?heq, ?hmem, ?hmin⟩
      · unfold RTree.nearest_neighbor
        rw [if_pos hpos]
        have haux : nearest_neighborAux ops t.root q =
            (t.nearest_neighbor_iter ops q).head? := rfl
        rw [haux, hiter]
        rfl
      · simp only [RTree.iter, selNode_all ops]
        exact hperm.mem_iff.mp (List.mem_cons_self _ _)
      · intro y hy
        simp only [RTree.iter, selNode_all ops] at hy
        have hy2 : y ∈ x :: rest := hperm.mem_iff.mpr hy
        rcases List.mem_cons.mp hy2 with rfl | hy3
        · exact le_refl _
        · simp only [List.map_cons] at hsorted
          rw [List.sorted_cons] at hsorted
          exact hsorted.1 _ (List.mem_map_of_mem _ hy3)

/-- Witness for C2 at a concrete non-empty tree. -/
theorem C2_nearest_neighbor_min_witness :
    ∃ x, wOne.nearest_neighbor wOps (fun _ => 0) = some x ∧ x ∈ wOne.iter wOps ∧
      ∀ y ∈ wOne.iter wOps,
        wOps.distance_2 x (fun _ => 0) ≤ wOps.distance_2 y (fun _ => 0) :=
  (C2_nearest_neighbor_min wOps DefaultParams wOne (fun _ => 0) wOps_wf (by decide)
    ⟨by decide, rfl⟩).2 (by decide)

/-- C3: `locate_in_envelope` yields exactly the stored elements whose
envelope the query envelope contains, and `locate_in_envelope_intersecting`
exactly those whose envelope it intersects. -/
theorem C3_locate_filters {α : Type} {d : Nat} (ops : ObjOps α d) (p : Params)
    (t : RTree α d) (E : AABB d) (hops : ops.WF) (hwf : t.WF ops p) :
    t.locate_in_envelope ops E =
      (t.iter ops).filter (fun x => E.contains_envelope (ops.envelope x)) ∧
    t.locate_in_envelope_intersecting ops E =
      (t.iter ops).filter (fun x => E.intersects (ops.envelope x)) := by
  have hok : t.root.envOk ops = true := rootWfB_envOk hwf.1
  have hiter : t.iter ops = t.root.elems := by
    simp only [RTree.iter, selNode_all ops]
  constructor
  · rw [hiter]
    simp only [RTree.locate_in_envelope]
    exact selNode_eq_filter ops _ _
      (fun y hy => AABB.intersects_of_contains (hops.1 y) hy)
      (fun a b hc hi => AABB.intersects_mono hc hi) t.root hok
  · rw [hiter]
    simp only [RTree.locate_in_envelope_intersecting]
    exact selNode_eq_filter ops _ _ (fun y hy => hy)
      (fun a b hc hi => AABB.intersects_mono hc hi) t.root hok

/-- Witness for C3 at a concrete tree and envelope. -/
theorem C3_locate_filters_witness :
    wOne.locate_in_envelope wOps (AABB.box (fun _ => 0) (fun _ => 9)) =
      (wOne.iter wOps).filter
        (fun x => (AABB.box (fun _ => 0) (fun _ => 9)).contains_envelope (wOps.envelope x)) ∧
    wOne.locate_in_envelope_intersecting wOps (AABB.box (fun _ => 0) (fun _ => 9)) =
      (wOne.iter wOps).filter
        (fun x => (AABB.box (fun _ => 0) (fun _ => 9)).intersects (wOps.envelope x)) :=
  C3_locate_filters wOps DefaultParams wOne (AABB.box (fun _ => 0) (fun _ => 9))
    wOps_wf ⟨by decide, rfl⟩

/-- C4: bulk loading a list yields the same multiset under `iter` as
sequentially inserting it into an empty tree. -/
theorem C4_bulk_load_equiv {α : Type} {d : Nat} (ops : ObjOps α d) (p : Params)
    (fuel : Nat) (objs : List α) (t2 : RTree α d) (hp : p.valid)
    (h : seqInsert ops p fuel objs (RTree.new α d) = some t2) :
    ((RTree.bulk_load ops p objs).iter ops).Perm (t2.iter ops) := by
  have h1 : (RTree.bulk_load ops p objs).root.elems.Perm objs :=
    bulkAux_elems ops p (by obtain ⟨h2, h3, _⟩ := hp; omega) objs.length 0 objs
  obtain ⟨h2, _⟩ := seqInsert_elems ops p fuel objs (RTree.new α d) t2 h
  simp only [RTree.iter, selNode_all ops]
  exact h1.trans h2.symm

/-- Witness for C4 at a concrete list. -/
theorem C4_bulk_load_equiv_witness :
    ((RTree.bulk_load wOps DefaultParams [5, 7]).iter wOps).Perm (wSeq.iter wOps) :=
  C4_bulk_load_equiv wOps DefaultParams 9 [5, 7] wSeq (by decide) rfl

/-- C5: insertion grows `size` by one, preserves the invariants, and adds one
occurrence of the inserted object (also when it is already present). -/
theorem C5_insert_grows {α : Type} {d : Nat} [DecidableEq α] (ops : ObjOps α d)
    (p : Params) (fuel : Nat) (t t2 : RTree α d) (x : α) (hp : p.valid)
    (hwf : t.WF ops p) (h : t.insert ops p fuel x = some t2) :
    t2.size = t.size + 1 ∧ t2.WF ops p ∧
    (t2.iter ops).count x = (t.iter ops).count x + 1 := by
  obtain ⟨hperm, hsz⟩ := RTree.insert_elems ops p fuel t x h
  refine ⟨hsz, RTree.insert_wf ops p fuel t x hp hwf h, ?hcount⟩
  simp only [RTree.iter, selNode_all ops]
  rw [hperm.count_eq, List.count_append]
  simp

/-- Witness for C5: inserting 5 into the tree already holding 5. -/
theorem C5_insert_grows_witness :
    ((wOne.insert wOps DefaultParams 9 5).getD wOne).size = wOne.size + 1 ∧
    ((wOne.insert wOps DefaultParams 9 5).getD wOne).WF wOps DefaultParams ∧
    ((((wOne.insert wOps DefaultParams 9 5).getD wOne).iter wOps).count 5 =
      (wOne.iter wOps).count 5 + 1) :=
  C5_insert_grows wOps DefaultParams 9 wOne
    ((wOne.insert wOps DefaultParams 9 5).getD wOne) 5 (by decide)
    ⟨by decide, rfl⟩ rfl

/-- C6: each removal call (generic selector, at-point, by equality) removes
at most one object: none leaves the tree and size unchanged, some removes the
first match in traversal order and decrements size by one. -/
theorem C6_remove_at_most_one {α : Type} {d : Nat} [DecidableEq α] (ops : ObjOps α d)
    (p : Params) (fuel : Nat) (t t2 : RTree α d) (sel : RemovalSel α d)
    (pt : Pt d) (x : α) (res : Option α)
    (h : t.remove_with_selector ops p fuel sel = some (res, t2) ∨
      (sel = SelectAtPointFunction ops pt ∧
        t.remove_at_point ops p fuel pt = some (res, t2)) ∨
      (sel = SelectEqualsFunction ops x ∧
        t.remove ops p fuel x = some (res, t2))) :
    (res = none → t2 = t ∧ t2.size = t.size) ∧
    (∀ obj, res = some obj → t2.size = t.size - 1 ∧
      (t2.root.elems ++ [obj]).Perm t.root.elems ∧
      (selNode ops sel.should_descend sel.should_remove t.root).head? = some obj) := by
  have hsel : t.remove_with_selector ops p fuel sel = some (res, t2) := by
    rcases h with h | ⟨rfl, h⟩ | ⟨rfl, h⟩
    · exact h
    · exact h
    · exact h
  have hc := RTree.remove_with_selector_correct ops p fuel sel t hsel
  refine ⟨fun hres => ?hnone, hc.2⟩
  have h1 := hc.1 hres
  subst h1
  exact ⟨rfl, rfl⟩

/-- Witness for C6: removing 5 from the tree holding it. -/
theorem C6_remove_at_most_one_witness :
    wRemoved.size = wOne.size - 1 ∧
    (wRemoved.root.elems ++ [5]).Perm wOne.root.elems ∧
    (selNode wOps (SelectEqualsFunction wOps (5 : Int)).should_descend
      (SelectEqualsFunction wOps (5 : Int)).should_remove wOne.root).head? = some 5 :=
  (C6_remove_at_most_one wOps DefaultParams 9 wOne wRemoved
    (SelectEqualsFunction wOps 5) (fun _ => 0) 5 (some 5)
    (Or.inr (Or.inr ⟨rfl, rfl⟩))).2 5 rfl

/-- C7: invalid parameters (MIN_SIZE below 2, MAX_SIZE below twice MIN_SIZE,
or REINSERTION_COUNT outside [1, MAX_SIZE - MIN_SIZE + 1]) are detected at
construction time: construction fails with the configuration-error signal
instead of returning a tree. -/
theorem C7_invalid_params (α : Type) (d : Nat) (p : Params)
    (h : p.MIN_SIZE < 2 ∨ p.MAX_SIZE < 2 * p.MIN_SIZE ∨ p.REINSERTION_COUNT < 1 ∨
      p.MAX_SIZE - p.MIN_SIZE + 1 < p.REINSERTION_COUNT) :
    RTree.new_with_params α d p = Except.error ConfigError.invalidParams := by
  unfold RTree.new_with_params
  rw [if_pos h]

/-- Witness for C7 at a too-small MIN_SIZE. -/
theorem C7_invalid_params_witness :
    RTree.new_with_params Int 1 ⟨1, 6, 2⟩ = Except.error ConfigError.invalidParams :=
  C7_invalid_params Int 1 ⟨1, 6, 2⟩ (Or.inl (by decide))

/-- C8: after a successful insertion of an object, `contains` finds it. -/
theorem C8_contains_after_insert {α : Type} {d : Nat} [DecidableEq α] (ops : ObjOps α d)
    (p : Params) (fuel : Nat) (t t2 : RTree α d) (x : α) (hops : ops.WF) (hp : p.valid)
    (hwf : t.WF ops p) (h : t.insert ops p fuel x = some t2) :
    t2.contains ops x = true := by
  have hwf2 := RTree.insert_wf ops p fuel t x hp hwf h
  have hok := rootWfB_envOk hwf2.1
  obtain ⟨hperm, _⟩ := RTree.insert_elems ops p fuel t x h
  have hx : x ∈ t2.root.elems :=
    hperm.mem_iff.mpr (List.mem_append_right _ (List.mem_cons_self _ _))
  simp only [RTree.contains, RTree.locate_in_envelope]
  rw [selNode_eq_filter ops _ _
    (fun y hy => AABB.intersects_of_contains (hops.1 y) hy)
    (fun a b hc hi => AABB.intersects_mono hc hi) t2.root hok]
  rw [List.any_eq_true]
  exact ⟨x, List.mem_filter.mpr ⟨hx, AABB.contains_envelope_refl _⟩, by simp⟩

/-- Witness for C8: the tree holding 5 contains 5. -/
theorem C8_contains_after_insert_witness : wOne.contains wOps 5 = true :=
  C8_contains_after_insert wOps DefaultParams 9 wEmpty wOne 5 wOps_wf (by decide)
    ⟨by decide, rfl⟩ rfl

/-- C9: the nearest-neighbour iterator emits its elements with non-decreasing
squared distances to the query point. -/
theorem C9_nn_iter_sorted {α : Type} {d : Nat} (ops : ObjOps α d) (p : Params)
    (t : RTree α d) (q : Pt d) (hops : ops.WF) (hp : p.valid) (hwf : t.WF ops p) :
    List.Sorted (· ≤ ·) ((t.nearest_neighbor_iter ops q).map
      (fun x => ops.distance_2 x q)) :=
  (nn_iter_props ops p t q hops hp hwf).2

/-- Witness for C9 at a concrete tree. -/
theorem C9_nn_iter_sorted_witness :
    List.Sorted (· ≤ ·) ((wOne.nearest_neighbor_iter wOps (fun _ => 0)).map
      (fun x => wOps.distance_2 x (fun _ => 0))) :=
  C9_nn_iter_sorted wOps DefaultParams wOne (fun _ => 0) wOps_wf (by decide)
    ⟨by decide, rfl⟩

/-- C10: whenever a line has distinct endpoints the divisor of
`project_point` (the squared direction length) is nonzero, and equal
endpoints make that divisor zero, so the distinct-endpoint precondition is
necessary for the division to be meaningful. -/
theorem C10_line_divisor {T : Type} {d : Nat} (l : LineWithData T d) :
    (l.fromP ≠ l.toP → (l.toP.sub l.fromP).length_2 ≠ 0) ∧
    (l.fromP = l.toP → (l.toP.sub l.fromP).length_2 = 0) := by
  constructor
  · intro hne h0
    exact hne ((Ptq.length_2_sub_eq_zero_iff l.toP l.fromP).mp h0).symm
  · intro heq
    exact (Ptq.length_2_sub_eq_zero_iff l.toP l.fromP).mpr heq.symm

/-- Witness for C10 on a non-degenerate and a degenerate line. -/
theorem C10_line_divisor_witness :
    (wLine.toP.sub wLine.fromP).length_2 ≠ 0 ∧
    (wLinePt.toP.sub wLinePt.fromP).length_2 = 0 :=
  ⟨(C10_line_divisor wLine).1 (fun h => by
      have h0 := congrFun h 0
      simp [wLine] at h0),
   (C10_line_divisor wLinePt).2 rfl⟩

end Rstar
